import Mathlib

/-!
Verification of the sudoku constraint-propagation and backtracking solver.

The development shallowly embeds the C sources (`board.c`, `main.c`): the
81-cell board becomes a total map from flat positions to cells, each mutating
C function becomes a state-passing Lean function, and the unbounded
`do ... while (changed)` fixed-point loop of `board_update_all_marks` becomes
a fuel-indexed loop whose fuel (730) is justified by a strict-decrease
measure proved below: every iteration that reports a change removes at least
one candidate bit out of the at most 9 x 81 bits present.

Machine-integer details kept from the source: `potential` is a 9-bit
bitfield (all writes in the translated paths stay below 512 when the inputs
do), the local scan variable of the bit-counting loops is a 16-bit
`unsigned short` (hence the fuel of 16 on those loops), and `complexity`
decrements only ever fire under an `is_marked` guard, so the unsigned wrap
of the source cannot trigger on the states considered here and plain `Nat`
subtraction is faithful.
-/

namespace Sudoku

/--
A board element.  The C struct packs `has_value` next to a union of
`value` and the pair `potential`/`complexity`; no translated code path ever
reads `value` of an element without a value, nor `potential`/`complexity`
of an element with one, so the union is faithfully a sum type.
-/
inductive Cell : Type
  | val (v : Nat) : Cell
  | free (potential complexity : Nat) : Cell
deriving DecidableEq, Repr

/-- Accessor for the `has_value` flag. -/
def Cell.hasValue : Cell → Bool
  | .val _ => true
  | .free _ _ => false

/-- Accessor for the decided value (reading it on an undecided cell is
undefined behaviour in the source; the model returns 0 there, and no
translated path performs such a read). -/
def Cell.value : Cell → Nat
  | .val v => v
  | .free _ _ => 0

/-- Accessor for the candidate bitset (junk 0 on decided cells). -/
def Cell.potential : Cell → Nat
  | .val _ => 0
  | .free p _ => p

/-- Accessor for the cached candidate count (junk 0 on decided cells). -/
def Cell.complexity : Cell → Nat
  | .val _ => 0
  | .free _ c => c

/-- The 81-cell array, as a total map from flat positions. -/
abbrev Cells := Nat → Cell

/-- `BOARD_ELEM`: flat index of coordinates, `(y * 9) + x`. -/
def pos9 (x y : Nat) : Nat := y * 9 + x

/-- Read the element at `(x, y)`. -/
def cellAt (cs : Cells) (x y : Nat) : Cell := cs (pos9 x y)

/-- Write the element at `(x, y)`. -/
def writeCell (cs : Cells) (x y : Nat) (c : Cell) : Cells :=
  fun p => if p = pos9 x y then c else cs p

/-- The board: the element array plus the scalar complexity of the simplest
element (`unsigned char complexity` in `struct board`). -/
structure Board where
  cells : Cells
  complexity : Nat

/-- `is_in_bounds`: both coordinates in `[0, 9)`. -/
def is_in_bounds (x y : Nat) : Bool := decide (x < 9) && decide (y < 9)

/-- `is_valid_value`: element value in `[0, 9)`. -/
def is_valid_value (v : Nat) : Bool := decide (v < 9)

/-- Modelled from the spec: the `TO_QUAD` macro is used throughout
`board.c` but its definition lives in a header revision not present under
`src/`; the spec fixes the regions as the nine non-overlapping 3x3 blocks,
so the macro maps a coordinate to its block base. -/
def TO_QUAD (p : Nat) : Nat := p / 3 * 3

/-- The bit-counting loop of `board_update_marks` (`while (potential != 0)`
summing the low bit and shifting right), with fuel 16 for the 16-bit local
`unsigned short potential`. -/
def countBitsAux : Nat → Nat → Nat
  | 0, _ => 0
  | fuel + 1, n => if n = 0 then 0 else n % 2 + countBitsAux fuel (n / 2)

/-- Popcount of a (at most 16-bit) bit field, as computed by the source. -/
def countBits (n : Nat) : Nat := countBitsAux 16 n

/-- `board_has_value` (the out-of-bounds branch aborts in the source and is
never reached from the translated call sites). -/
def board_has_value (cs : Cells) (x y : Nat) : Bool :=
  if is_in_bounds x y then (cellAt cs x y).hasValue else false

/-- `board_get_value`. -/
def board_get_value (cs : Cells) (x y : Nat) : Nat :=
  if is_in_bounds x y then (cellAt cs x y).value else 0

/-- `board_is_marked`: test a candidate bit. -/
def board_is_marked (cs : Cells) (x y v : Nat) : Bool :=
  if is_in_bounds x y && is_valid_value v then
    decide ((cellAt cs x y).potential &&& (1 <<< v) ≠ 0)
  else false

/-- `board_init`: `memset` clears every element (unset, empty candidate
set, zero cached complexity) and the board complexity becomes 9. -/
def board_init : Board :=
  { cells := fun _ => Cell.free 0 0, complexity := 9 }

/-- `board_set`: decide a cell's value (no constraint check in this
revision). -/
def board_set (b : Board) (x y v : Nat) : Board :=
  if is_in_bounds x y && is_valid_value v then
    { b with cells := writeCell b.cells x y (Cell.val v) }
  else b

/-- `board_mark`: add a candidate bit and bump the cached complexity when
the bit was absent. -/
def board_mark (b : Board) (x y v : Nat) : Board :=
  if is_in_bounds x y && is_valid_value v then
    if board_is_marked b.cells x y v then b
    else
      let e := cellAt b.cells x y
      let c := Cell.free (e.potential ||| (1 <<< v)) (e.complexity + 1)
      { b with cells := writeCell b.cells x y c }
  else b

/-- `board_unmark`: clear a candidate bit, decrement the cached
complexity, and lower the board complexity if the cell became simplest. -/
def board_unmark (b : Board) (x y v : Nat) : Board :=
  if is_in_bounds x y && is_valid_value v then
    if board_is_marked b.cells x y v then
      let e := cellAt b.cells x y
      let pot := e.potential &&& ((1 <<< v) ^^^ 511)
      let comp := e.complexity - 1
      { cells := writeCell b.cells x y (Cell.free pot comp),
        complexity := if comp < b.complexity then comp else b.complexity }
    else b
  else b

/-- `board_can_place_value`: no decided cell elsewhere in the row or the
column already holds `v` (this revision performs no block check). -/
def board_can_place_value (cs : Cells) (x y v : Nat) : Bool :=
  if is_in_bounds x y && is_valid_value v then
    ((List.range 9).all fun cx =>
      cx == x ||
      !(board_has_value cs cx y && (board_get_value cs cx y == v))) &&
    ((List.range 9).all fun cy =>
      cy == y ||
      !(board_has_value cs x cy && (board_get_value cs x cy == v)))
  else false

/-- `board_is_valid`: every decided cell could still be placed at its own
position (excluding itself). -/
def board_is_valid (cs : Cells) : Bool :=
  (List.range 9).all fun y =>
    (List.range 9).all fun x =>
      !board_has_value cs x y ||
      board_can_place_value cs x y (cellAt cs x y).value

/-- Row scan of `board_update_marks`: OR the value bit of every decided
cell of row `y` other than column `x` into the accumulator. -/
def row_value_mask (cs : Cells) (x y m0 : Nat) : Nat :=
  (List.range 9).foldl
    (fun m cx =>
      if cx != x && board_has_value cs cx y then
        m ||| (1 <<< (cellAt cs cx y).value)
      else m) m0

/-- Column scan of `board_update_marks`. -/
def col_value_mask (cs : Cells) (x y m0 : Nat) : Nat :=
  (List.range 9).foldl
    (fun m cy =>
      if cy != y && board_has_value cs x cy then
        m ||| (1 <<< (cellAt cs x cy).value)
      else m) m0

/-- The candidate set recomputed by `board_update_marks`: the 9-bit
complement of the accumulated row and column value masks. -/
def update_marks_potential (cs : Cells) (x y : Nat) : Nat :=
  col_value_mask cs x y (row_value_mask cs x y 0) ^^^ 511

/-- `board_update_marks`: recompute one unset cell's candidate set and
cached complexity from its row and column, lowering the board complexity
if the cell became simplest. -/
def board_update_marks (b : Board) (x y : Nat) : Board :=
  if is_in_bounds x y then
    let pot := update_marks_potential b.cells x y
    let comp := countBits pot
    { cells := writeCell b.cells x y (Cell.free pot comp),
      complexity := if comp < b.complexity then comp else b.complexity }
  else b

/-- The per-cell test of `board_can_quad_set_value`: a decided cell holding
`v`, or an undecided cell with `v` still marked. -/
def quad_cell_admits (cs : Cells) (tx ty v : Nat) : Bool :=
  (board_has_value cs tx ty && ((cellAt cs tx ty).value == v)) ||
  (!board_has_value cs tx ty && board_is_marked cs tx ty v)

/-- `board_can_quad_set_value`: every other block in the same block row
can still contain `v` outside the row of `(x, y)`, and every other block in
the same block column can still contain `v` outside the column of
`(x, y)`. -/
def board_can_quad_set_value (cs : Cells) (x y v : Nat) : Bool :=
  if is_in_bounds x y && is_valid_value v then
    let quad_x := TO_QUAD x
    let quad_y := TO_QUAD y
    (([0, 3, 6] : List Nat).all fun base_x =>
      base_x == quad_x ||
      ((List.range 3).any fun check_y =>
        check_y != y % 3 &&
        ((List.range 3).any fun check_x =>
          quad_cell_admits cs (base_x + check_x) (quad_y + check_y) v))) &&
    (([0, 3, 6] : List Nat).all fun base_y =>
      base_y == quad_y ||
      ((List.range 3).any fun check_x =>
        check_x != x % 3 &&
        ((List.range 3).any fun check_y =>
          quad_cell_admits cs (quad_x + check_x) (base_y + check_y) v)))
  else false

/-- Result of `board_count_quad_potentials`; the C `unique` element pointer
becomes the element's coordinates. -/
structure CountResult where
  count : Nat
  unique : Option (Nat × Nat)
  is_set : Bool
deriving DecidableEq, Repr

/-- The scanning loop of `board_count_quad_potentials`, with its early
return when the value is already decided somewhere in the block. -/
def count_quad_loop (cs : Cells) (v : Nat) :
    List (Nat × Nat) → CountResult → CountResult
  | [], r => r
  | t :: rest, r =>
    let hv := board_has_value cs t.1 t.2
    if !hv && board_is_marked cs t.1 t.2 v then
      let cnt := r.count + 1
      count_quad_loop cs v rest
        { count := cnt,
          unique := if cnt = 1 then some t else none,
          is_set := false }
    else if hv && (board_get_value cs t.1 t.2 == v) then
      { count := 1, unique := r.unique, is_set := true }
    else
      count_quad_loop cs v rest r

/-- The nine cells of the block containing `(x, y)`, in the scan order of
the source (block row outer, block column inner). -/
def quadCellList (x y : Nat) : List (Nat × Nat) :=
  (List.range 9).map fun i => (TO_QUAD x + i % 3, TO_QUAD y + i / 3)

/-- `board_count_quad_potentials`. -/
def board_count_quad_potentials (cs : Cells) (x y v : Nat) : CountResult :=
  if is_in_bounds x y && is_valid_value v then
    count_quad_loop cs v (quadCellList x y)
      { count := 0, unique := none, is_set := false }
  else { count := 0, unique := none, is_set := false }

/-- One value of the loop of `board_update_marks_by_quad`: when exactly one
undecided cell of the block admits `v` and its candidate set is not already
the singleton, force it to the singleton with cached complexity 1. -/
def quad_value_step (cs : Cells) (x y v : Nat) : Cells × Bool :=
  let r := board_count_quad_potentials cs x y v
  if r.is_set then (cs, false)
  else
    match r.unique with
    | some u =>
      if (cellAt cs u.1 u.2).potential ≠ (1 <<< v) then
        (writeCell cs u.1 u.2 (Cell.free (1 <<< v) 1), true)
      else (cs, false)
    | none => (cs, false)

/-- The `changed |= step(...)` loop pattern shared by every sweep of
`board_update_all_marks`: run the step over each list element on the
current cell array, OR-accumulating the change flag. -/
def flag_fold {β : Type} (step : Cells → β → Cells × Bool) (l : List β)
    (a : Cells × Bool) : Cells × Bool :=
  l.foldl
    (fun acc t =>
      let r := step acc.1 t
      (r.1, acc.2 || r.2)) a

/-- `board_update_marks_by_quad` on the cell array (the source also writes
the board complexity scalar `= 1` whenever it forces a cell; the scalar is
reinstated by the caller wrapper `marks_pass` below, faithful because the
loop never reads it). -/
def board_update_marks_by_quad (cs : Cells) (x y : Nat) : Cells × Bool :=
  if is_in_bounds x y then
    flag_fold (fun cs2 v => quad_value_step cs2 x y v) (List.range 9)
      (cs, false)
  else (cs, false)

/-- The bit loop of `board_update_marks_by_excl`: walk the saved candidate
bits; whenever placing that value would make another block unsolvable,
re-flip the bit in the (inverted) live bitset and record a change.  Fuel 16
for the 16-bit `unsigned short` local. -/
def excl_loop (x y : Nat) : Nat → Cells → Nat → Nat → Bool → Cells × Bool
  | 0, cs, _, _, ch => (cs, ch)
  | fuel + 1, cs, pot, v, ch =>
    if pot = 0 then (cs, ch)
    else if pot % 2 = 1 && !board_can_quad_set_value cs x y v then
      excl_loop x y fuel
        (writeCell cs x y
          (Cell.free ((cellAt cs x y).potential ||| (1 <<< v))
            (cellAt cs x y).complexity))
        (pot / 2) (v + 1) true
    else excl_loop x y fuel cs (pot / 2) (v + 1) ch

/-- `board_update_marks_by_excl`: invert the cell's bitset, run the bit
loop, and invert back.  The cached complexity is not touched. -/
def board_update_marks_by_excl (cs : Cells) (x y : Nat) : Cells × Bool :=
  if is_in_bounds x y then
    let e := cellAt cs x y
    let cs1 := writeCell cs x y (Cell.free (e.potential ^^^ 511) e.complexity)
    let r := excl_loop x y 16 cs1 e.potential 0 false
    let e2 := cellAt r.1 x y
    (writeCell r.1 x y (Cell.free (e2.potential ^^^ 511) e2.complexity), r.2)
  else (cs, false)

/-- All 81 cell positions in the row-major order of the source's nested
`for (y) for (x)` loops. -/
def allCellPositions : List (Nat × Nat) :=
  (List.range 81).map fun p => (p % 9, p / 9)

/-- The nine block base positions, in the order of the source's
`for (y += 3) for (x += 3)` loops. -/
def quadBasePositions : List (Nat × Nat) :=
  (List.range 9).map fun i => (i % 3 * 3, i / 3 * 3)

/-- One cell of the exclusion sweep: `board_update_marks_by_excl` on an
undecided cell, a no-change skip on a decided one. -/
def excl_cell_step (cs : Cells) (t : Nat × Nat) : Cells × Bool :=
  if !board_has_value cs t.1 t.2 then board_update_marks_by_excl cs t.1 t.2
  else (cs, false)

/-- The exclusion sweep of `board_update_all_marks`: run
`board_update_marks_by_excl` over every undecided cell, accumulating the
change flag. -/
def excl_sweep (cs : Cells) : Cells × Bool :=
  flag_fold excl_cell_step allCellPositions (cs, false)

/-- One block of the block-uniqueness sweep. -/
def quad_base_step (cs : Cells) (t : Nat × Nat) : Cells × Bool :=
  board_update_marks_by_quad cs t.1 t.2

/-- The block-uniqueness sweep of `board_update_all_marks`. -/
def quad_sweep (cs : Cells) : Cells × Bool :=
  flag_fold quad_base_step quadBasePositions (cs, false)

/-- One iteration of the `do ... while (changed)` loop of
`board_update_all_marks`: the exclusion sweep then the block sweep.  The
board complexity scalar becomes 1 exactly when the block sweep forced some
cell (the source writes it inside the sweep; the net effect is identical
because nothing in the loop reads it). -/
def marks_pass (b : Board) : Board × Bool :=
  let e := excl_sweep b.cells
  let q := quad_sweep e.1
  ({ cells := q.1, complexity := if q.2 then 1 else b.complexity },
    e.2 || q.2)

/-- The fuel-indexed `do ... while (changed)` loop.  Fuel 730 suffices for
every board reachable from the initial per-cell pass: each changed
iteration removes at least one of the at most 9 x 81 candidate bits
(proved below), so the loop always reaches its fixed point first. -/
def marks_loop : Nat → Board → Board
  | 0, b => b
  | fuel + 1, b =>
    let r := marks_pass b
    if r.2 then marks_loop fuel r.1 else r.1

/-- The initial per-cell pass of `board_update_all_marks`: recompute every
undecided cell's candidates from its row and column. -/
def init_pass (b : Board) : Board :=
  allCellPositions.foldl
    (fun acc t =>
      if !board_has_value acc.cells t.1 t.2 then
        board_update_marks acc t.1 t.2
      else acc) b

/-- `board_update_all_marks`: the initial pass followed by the fixed-point
loop. -/
def board_update_all_marks (b : Board) : Board :=
  marks_loop 730 (init_pass b)

/-- The row-unmark loop of `board_place`. -/
def unmark_row (b : Board) (x y v : Nat) : Board :=
  (List.range 9).foldl
    (fun acc ux =>
      if ux != x && !board_has_value acc.cells ux y then
        board_unmark acc ux y v
      else acc) b

/-- The column-unmark loop of `board_place`. -/
def unmark_col (b : Board) (x y v : Nat) : Board :=
  (List.range 9).foldl
    (fun acc uy =>
      if uy != y && !board_has_value acc.cells x uy then
        board_unmark acc x uy v
      else acc) b

/-- The block-unmark loop of `board_place`. -/
def unmark_quad (b : Board) (x y v : Nat) : Board :=
  (quadCellList x y).foldl
    (fun acc t =>
      if (t.1 != x || t.2 != y) && !board_has_value acc.cells t.1 t.2 then
        board_unmark acc t.1 t.2 v
      else acc) b

/-- The scanning loop of `board_refresh_complexity`: track the minimum
cached complexity of undecided cells, return `false` on meeting a cached 0,
return `true` immediately on reaching minimum 1, and turn the sentinel 10
into 0 (solved) when the scan completes. -/
def refresh_scan : List (Nat × Nat) → Board → Board × Bool
  | [], b =>
    ({ b with complexity := if b.complexity = 10 then 0 else b.complexity },
      true)
  | t :: rest, b =>
    if !board_has_value b.cells t.1 t.2 then
      let c := (cellAt b.cells t.1 t.2).complexity
      if c < b.complexity then
        if c = 0 then (b, false)
        else
          let b1 := { b with complexity := c }
          if b1.complexity = 1 then (b1, true) else refresh_scan rest b1
      else refresh_scan rest b
    else refresh_scan rest b

/-- `board_refresh_complexity`: refresh all marks, then scan for the
minimum cached complexity starting from the sentinel 10. -/
def board_refresh_complexity (b : Board) : Board × Bool :=
  let b1 := board_update_all_marks b
  refresh_scan allCellPositions { b1 with complexity := 10 }

/-- `board_place`: check the row/column constraint, unmark the placed value
across the row, the column and the block, decide the cell, and refresh. -/
def board_place (b : Board) (x y v : Nat) : Board × Bool :=
  if is_in_bounds x y && is_valid_value v then
    if board_can_place_value b.cells x y v then
      let b1 := unmark_row b x y v
      let b2 := unmark_col b1 x y v
      let b3 := unmark_quad b2 x y v
      let b4 := board_set b3 x y v
      board_refresh_complexity b4
    else (b, false)
  else (b, false)

/-- `board_copy`: a whole-struct `memcpy`. -/
def board_copy (b : Board) : Board := b

/-- `board_place_speculative`: try the placement on a fresh duplicate.  The
first component is the parent board as left by the call: the source takes
the parent through a `const` pointer and directs every mutation at the
duplicate, which the state-passing translation makes explicit. -/
def board_place_speculative (b : Board) (x y v : Nat) :
    Board × Option Board :=
  if is_in_bounds x y && is_valid_value v then
    if board_can_place_value b.cells x y v then
      let dup := board_copy b
      let r := board_place dup x y v
      if r.2 then (b, some r.1) else (b, none)
    else (b, none)
  else (b, none)

/-! ### The driver (`main.c`) -/

/-- `is_valid_def`: a board-definition character is a space (32) or one of
the ASCII digits `0`-`9` (48-57).  Characters are modelled by their ASCII
codes. -/
def is_valid_def (c : Nat) : Bool := c == 32 || (48 ≤ c && c ≤ 57)

/-- The format check of `load_board_file`: positions `1..89` of the mapped
file are scanned; every 10th character (the row terminator) is ignored and
every other character must satisfy `is_valid_def`, otherwise the file is
rejected. -/
def load_board_check (data : List Nat) : Bool :=
  (List.range 89).all fun i0 =>
    let i := i0 + 1
    (i % 10 == 0) || is_valid_def (data.getD (i - 1) 0)

/-- The bit-scanning loop of `first_potential_value` (fuel 16 for the
16-bit local). -/
def lowest_bit_loop : Nat → Nat → Nat → Nat
  | 0, _, v => v
  | fuel + 1, pot, v =>
    if pot % 2 = 1 then v else lowest_bit_loop fuel (pot / 2) (v + 1)

/-- `first_potential_value`: `none` models the error flag raised on an
empty candidate set, otherwise the lowest set bit index. -/
def first_potential_value (pot : Nat) : Option Nat :=
  if pot = 0 then none else some (lowest_bit_loop 16 pot 0)

/-- One full 81-cell sweep of the `while (complexity == 1)` loop of
`simplify`: place the single candidate of every undecided cell whose cached
complexity is 1; an empty candidate set aborts the sweep returning the
error flag (`simplify` then returns false).  The return value of
`board_place` is discarded, as in the source. -/
def sweep_cells : Board → List (Nat × Nat) → Board × Bool
  | b, [] => (b, true)
  | b, t :: rest =>
    if !board_has_value b.cells t.1 t.2 &&
        ((cellAt b.cells t.1 t.2).complexity == 1) then
      match first_potential_value (cellAt b.cells t.1 t.2).potential with
      | none => (b, false)
      | some v => sweep_cells (board_place b t.1 t.2 v).1 rest
    else sweep_cells b rest

/-- The `while (board->complexity == 1)` loop of `simplify`, fuel-indexed.
Fuel 82 covers every reachable execution: each sweep entered with
complexity 1 decides at least one of the 81 cells or exits. -/
def while_complexity_one : Nat → Board → Board × Bool
  | 0, b => (b, true)
  | fuel + 1, b =>
    if b.complexity == 1 then
      let r := sweep_cells b allCellPositions
      if r.2 then while_complexity_one fuel r.1 else (r.1, false)
    else (b, true)

/-- `simplify` (the recursive search driver), structurally recursive on the
speculation depth budget; depth 82 exceeds the 81 possible placements, so
the budget never runs out on the boards considered here.  After the
complexity-1 sweeps, if the board is still ambiguous the driver scans for a
most-constrained cell and tries each of its candidate values on a
speculative duplicate, adopting the first recursive success whose final
complexity is 0 (the source encodes the adoption-and-stop with its
`x = 9, y = 9, value = 9` loop-exit assignments); in every such case the
function falls through to `return true`. -/
def simplify : Nat → Board → Board × Bool
  | 0, b => (b, true)
  | recFuel + 1, b =>
    let w := while_complexity_one 82 b
    if w.2 then
      let b1 := w.1
      if b1.complexity > 1 then
        let final := allCellPositions.foldl
          (fun (acc : Board × Bool) t =>
            if acc.2 then acc
            else
              let e := cellAt acc.1.cells t.1 t.2
              if !board_has_value acc.1.cells t.1 t.2 &&
                  (e.complexity == acc.1.complexity) then
                (List.range 9).foldl
                  (fun (acc2 : Board × Bool) v =>
                    if acc2.2 then acc2
                    else if (e.potential &&& (1 <<< v)) ≠ 0 then
                      match (board_place_speculative acc2.1 t.1 t.2 v).2 with
                      | none => acc2
                      | some child =>
                        let r := simplify recFuel child
                        if r.2 && (r.1.complexity == 0) then (r.1, true)
                        else acc2
                    else acc2) acc
              else acc) (b1, false)
        (final.1, true)
      else (b1, true)
    else (w.1, false)

/-! ### Specification-side definitions and concrete boards -/

/-- The set of values decided somewhere in row `y` (no skip: unlike the
scan inside `board_update_marks` this includes column `x`, which makes no
difference at an undecided `(x, y)`). -/
def rowPlacedMask (cs : Cells) (y : Nat) : Nat :=
  (List.range 9).foldl
    (fun m cx =>
      if board_has_value cs cx y then m ||| (1 <<< (cellAt cs cx y).value)
      else m) 0

/-- The set of values decided somewhere in column `x`. -/
def colPlacedMask (cs : Cells) (x : Nat) : Nat :=
  (List.range 9).foldl
    (fun m cy =>
      if board_has_value cs x cy then m ||| (1 <<< (cellAt cs x cy).value)
      else m) 0

/-- The set of values decided somewhere in the block of `(x, y)`. -/
def blockPlacedMask (cs : Cells) (x y : Nat) : Nat :=
  (quadCellList x y).foldl
    (fun m t =>
      if board_has_value cs t.1 t.2 then m ||| (1 <<< (cellAt cs t.1 t.2).value)
      else m) 0

/-- Stated from the claim for comparison: the candidate set the claim says
the initial per-cell pass computes, namely the 9-bit complement of the
union of the placed values of the cell's row, column and block. -/
def claimed_candidates (cs : Cells) (x y : Nat) : Nat :=
  511 ^^^ (rowPlacedMask cs y ||| colPlacedMask cs x ||| blockPlacedMask cs x y)

/-- The conflict-freedom notion actually enforced by `board_is_valid`:
no two distinct decided cells sharing a row or a column hold the same
value. -/
def RowColConflictFree (cs : Cells) : Prop :=
  ∀ x y x2 y2, x < 9 → y < 9 → x2 < 9 → y2 < 9 →
    board_has_value cs x y = true → board_has_value cs x2 y2 = true →
    (x2, y2) ≠ (x, y) → (y2 = y ∨ x2 = x) →
    (cellAt cs x2 y2).value ≠ (cellAt cs x y).value

/-- The order condition equivalent to `board_refresh_complexity` returning
false: walking the scan list, an undecided cell of cached complexity 0 is
met before any undecided cell of cached complexity 1. -/
def zero_before_one (cs : Cells) : List (Nat × Nat) → Bool
  | [] => false
  | t :: rest =>
    (!board_has_value cs t.1 t.2 && ((cellAt cs t.1 t.2).complexity == 0)) ||
    (!(!board_has_value cs t.1 t.2 && ((cellAt cs t.1 t.2).complexity == 1)) &&
      zero_before_one cs rest)

/-- Stated from the claim for comparison: the characters the claim allows
in a cell position of a board-definition file, a digit `1`-`9` (ASCII
49-57) or a space. -/
def claim_cell_char_ok (c : Nat) : Bool := c == 32 || (49 ≤ c && c ≤ 57)

/-- The fully analyzed empty board: what `board_update_all_marks` leaves of
`board_init` (every cell undecided with all nine candidates). -/
def emptyAnalyzed : Board :=
  { cells := fun _ => Cell.free 511 9, complexity := 9 }

/-- Six decided cells filling the two rows of block `(3..5, 0..2)` that do
not meet row 0; placing any of the three remaining values at `(0, 0)` would
leave that block without a home for it, so the exclusion pass removes those
three candidate bits from `(0, 0)`. -/
def exclBugBoard : Board :=
  { cells := fun p =>
      if p = pos9 3 1 then Cell.val 1 else if p = pos9 4 1 then Cell.val 2
      else if p = pos9 5 1 then Cell.val 3 else if p = pos9 3 2 then Cell.val 4
      else if p = pos9 4 2 then Cell.val 5 else if p = pos9 5 2 then Cell.val 6
      else Cell.free 511 9,
    complexity := 9 }

/-- A nearly complete board whose only undecided cells are `(0, 0)` — row
and column covering 0-7, so its recomputed candidate set is `{8}` with
cached complexity 1 — and `(1, 1)`, whose row and column cover all nine
values, leaving it an empty candidate set with cached complexity 0.  The
decided value 8 at `(3, 1)`, `(6, 2)`, `(1, 3)` and `(1, 6)` keeps the
exclusion test satisfied, so the analysis stabilises after one pass, and
the scan meets `(0, 0)` before `(1, 1)`. -/
def refreshGapBoard : Board :=
  { cells := fun p =>
      if p = pos9 0 0 then Cell.free 0 0
      else if p = pos9 1 1 then Cell.free 0 0
      else if p = pos9 1 0 then Cell.val 0 else if p = pos9 2 0 then Cell.val 1
      else if p = pos9 3 0 then Cell.val 2 else if p = pos9 4 0 then Cell.val 3
      else if p = pos9 5 0 then Cell.val 4 else if p = pos9 6 0 then Cell.val 5
      else if p = pos9 7 0 then Cell.val 6 else if p = pos9 8 0 then Cell.val 7
      else if p = pos9 0 1 then Cell.val 0 else if p = pos9 0 2 then Cell.val 1
      else if p = pos9 0 3 then Cell.val 2 else if p = pos9 0 4 then Cell.val 3
      else if p = pos9 0 5 then Cell.val 4 else if p = pos9 0 6 then Cell.val 5
      else if p = pos9 0 7 then Cell.val 6 else if p = pos9 0 8 then Cell.val 7
      else if p = pos9 2 1 then Cell.val 2 else if p = pos9 3 1 then Cell.val 8
      else if p = pos9 4 1 then Cell.val 3 else if p = pos9 5 1 then Cell.val 4
      else if p = pos9 6 1 then Cell.val 5 else if p = pos9 7 1 then Cell.val 6
      else if p = pos9 8 1 then Cell.val 7
      else if p = pos9 1 2 then Cell.val 1 else if p = pos9 1 3 then Cell.val 8
      else if p = pos9 1 6 then Cell.val 8 else if p = pos9 6 2 then Cell.val 8
      else Cell.val 0,
    complexity := 9 }

/-- An unsolvable grid definition: the only undecided cell `(0, 0)` sees
the values 0-7 in its row and 8 in its column, so its recomputed candidate
set is empty; every other cell is decided, so the analysis stabilises
after one pass. -/
def unsolvableInput : Board :=
  { cells := fun p =>
      if p = pos9 0 0 then Cell.free 0 0
      else if p = pos9 1 0 then Cell.val 0 else if p = pos9 2 0 then Cell.val 1
      else if p = pos9 3 0 then Cell.val 2 else if p = pos9 4 0 then Cell.val 3
      else if p = pos9 5 0 then Cell.val 4 else if p = pos9 6 0 then Cell.val 5
      else if p = pos9 7 0 then Cell.val 6 else if p = pos9 8 0 then Cell.val 7
      else if p = pos9 0 1 then Cell.val 8
      else Cell.val 0,
    complexity := 9 }

/-- The unsolvable grid as the driver sees it: the state of
`unsolvableInput` after `board_update_all_marks`, mirroring `main`. -/
def unsolvableBoard : Board := board_update_all_marks unsolvableInput

/-- A board with a single decided cell `(0, 0) = 0` (as left by
`board_init` plus one `board_set`). -/
def singlePlacedBoard : Board :=
  { cells := fun p => if p = pos9 0 0 then Cell.val 0 else Cell.free 0 0,
    complexity := 9 }

/-- Two cells decided to the same value 4 at `(0, 0)` and `(1, 1)`: they
share block 0 but neither a row nor a column. -/
def blockConflictBoard : Board :=
  { cells := fun p =>
      if p = pos9 0 0 then Cell.val 4 else if p = pos9 1 1 then Cell.val 4
      else Cell.free 511 9,
    complexity := 9 }

/-- A fully decided board (every cell holds a value); used to exercise the
solved branch of the refresh scan. -/
def allDecidedBoard : Board :=
  { cells := fun p => Cell.val ((p % 9 + p / 9) % 9), complexity := 9 }

/-! ### Relations and measures used by the proofs -/

/-- Two cell arrays agree on the decided-value frame: the same cells are
decided, and decided cells are equal. -/
def frameEq (cs1 cs2 : Cells) : Prop :=
  ∀ p, (cs1 p).hasValue = (cs2 p).hasValue ∧
    ((cs2 p).hasValue = true → cs1 p = cs2 p)

/-- Pointwise candidate-set inclusion: every candidate bit of `cs` was
already a candidate bit of `cs0`. -/
def subPot (cs0 cs : Cells) : Prop :=
  ∀ p i, ((cs p).potential).testBit i = true →
    ((cs0 p).potential).testBit i = true

/-- Every cell of the board area has a 9-bit candidate field. -/
def Wf512 (cs : Cells) : Prop := ∀ p, p < 81 → (cs p).potential < 512

/-- Every decided cell of the board area holds a value below 9. -/
def Wf9 (cs : Cells) : Prop :=
  ∀ p, p < 81 → (cs p).hasValue = true → (cs p).value < 9

/-- The cell written by `board_update_marks`. -/
def recomputed_cell (cs : Cells) (x y : Nat) : Cell :=
  Cell.free (update_marks_potential cs x y)
    (countBits (update_marks_potential cs x y))

/-- The fold underlying `init_pass`, abstracted over the position list. -/
def init_fold (l : List (Nat × Nat)) (b : Board) : Board :=
  l.foldl
    (fun acc t =>
      if !board_has_value acc.cells t.1 t.2 then
        board_update_marks acc t.1 t.2
      else acc) b

/-- The total number of candidate bits on the board: the termination
measure of the fixed-point loop. -/
def totalCount (cs : Cells) : Nat :=
  ((List.range 81).map fun p => countBits (cs p).potential).sum

/-! ## Basic lemmas about cell reads and writes -/

theorem cellAt_writeCell_self (cs : Cells) (x y : Nat) (c : Cell) :
    cellAt (writeCell cs x y c) x y = c := by
  simp [cellAt, writeCell]

theorem writeCell_apply_ne (cs : Cells) (x y : Nat) (c : Cell) {p : Nat}
    (h : p ≠ pos9 x y) : writeCell cs x y c p = cs p := by
  simp [writeCell, h]

theorem writeCell_writeCell (cs : Cells) (x y : Nat) (a b : Cell) :
    writeCell (writeCell cs x y a) x y b = writeCell cs x y b := by
  funext p
  unfold writeCell
  by_cases hp : p = pos9 x y <;> simp [hp]

theorem writeCell_cellAt_self (cs : Cells) (x y : Nat) :
    writeCell cs x y (cellAt cs x y) = cs := by
  funext p
  unfold writeCell cellAt
  by_cases hp : p = pos9 x y <;> simp [hp]

theorem cell_eta_free {c : Cell} (h : c.hasValue = false) :
    Cell.free c.potential c.complexity = c := by
  cases c with
  | val v => cases h
  | free p k => rfl

theorem pos9_inj {x y x2 y2 : Nat} (hx : x < 9) (hx2 : x2 < 9)
    (h : pos9 x y = pos9 x2 y2) : x = x2 ∧ y = y2 := by
  unfold pos9 at h
  omega

theorem mem_allCellPositions {x y : Nat} (hx : x < 9) (hy : y < 9) :
    (x, y) ∈ allCellPositions := by
  unfold allCellPositions
  refine List.mem_map.mpr ⟨y * 9 + x, List.mem_range.mpr (by omega), ?_⟩
  simp only [Prod.mk.injEq]
  omega

theorem allCellPositions_bounds : ∀ t ∈ allCellPositions, t.1 < 9 ∧ t.2 < 9 := by
  intro t ht
  unfold allCellPositions at ht
  obtain ⟨p, hp, rfl⟩ := List.mem_map.mp ht
  have := List.mem_range.mp hp
  omega

theorem quadBasePositions_bounds :
    ∀ t ∈ quadBasePositions, t.1 < 9 ∧ t.2 < 9 := by
  intro t ht
  unfold quadBasePositions at ht
  obtain ⟨i, hi, rfl⟩ := List.mem_map.mp ht
  have := List.mem_range.mp hi
  omega

theorem board_has_value_eq (cs : Cells) {x y : Nat} (hx : x < 9) (hy : y < 9) :
    board_has_value cs x y = (cellAt cs x y).hasValue := by
  simp [board_has_value, is_in_bounds, hx, hy]

theorem board_get_value_eq (cs : Cells) {x y : Nat} (hx : x < 9) (hy : y < 9) :
    board_get_value cs x y = (cellAt cs x y).value := by
  simp [board_get_value, is_in_bounds, hx, hy]

/-! ## Frame preservation and congruence -/

theorem frameEq_refl (cs : Cells) : frameEq cs cs := fun _ => ⟨rfl, fun _ => rfl⟩

theorem frameEq_trans {cs1 cs2 cs3 : Cells} (h12 : frameEq cs1 cs2)
    (h23 : frameEq cs2 cs3) : frameEq cs1 cs3 := by
  intro p
  refine ⟨(h12 p).1.trans (h23 p).1, fun hv => ?_⟩
  rw [(h12 p).2 (by rw [(h23 p).1]; exact hv)]
  exact (h23 p).2 hv

theorem frameEq_writeCell_free {cs csO : Cells} (h : frameEq cs csO)
    (x y pot comp : Nat) (hfree : (csO (pos9 x y)).hasValue = false) :
    frameEq (writeCell cs x y (Cell.free pot comp)) csO := by
  intro p
  by_cases hp : p = pos9 x y
  · subst hp
    constructor
    · have hw := cellAt_writeCell_self cs x y (Cell.free pot comp)
      unfold cellAt at hw
      rw [hw, hfree]
      rfl
    · intro hv; rw [hfree] at hv; cases hv
  · rw [writeCell_apply_ne cs x y _ hp]
    exact h p

theorem board_has_value_congr {cs1 cs2 : Cells} (h : frameEq cs1 cs2)
    (x y : Nat) : board_has_value cs1 x y = board_has_value cs2 x y := by
  unfold board_has_value
  split
  · exact (h (pos9 x y)).1
  · rfl

theorem cellAt_congr_of_has {cs1 cs2 : Cells} (h : frameEq cs1 cs2)
    {x y : Nat} (hhas : (cs2 (pos9 x y)).hasValue = true) :
    cellAt cs1 x y = cellAt cs2 x y := (h (pos9 x y)).2 hhas

theorem row_value_mask_congr {cs1 cs2 : Cells} (h : frameEq cs1 cs2)
    (x y m : Nat) : row_value_mask cs1 x y m = row_value_mask cs2 x y m := by
  unfold row_value_mask
  congr 1
  funext m cx
  rw [board_has_value_congr h cx y]
  by_cases hb : board_has_value cs2 cx y = true
  · have hlt : cx < 9 ∧ y < 9 := by
      by_contra hc
      rw [board_has_value] at hb
      rw [if_neg (by simp [is_in_bounds]; omega)] at hb
      cases hb
    have hv2 : (cs2 (pos9 cx y)).hasValue = true := by
      rw [board_has_value, if_pos (by simp [is_in_bounds, hlt.1, hlt.2])] at hb
      exact hb
    rw [hb, cellAt_congr_of_has h hv2]
  · rw [Bool.not_eq_true] at hb
    rw [hb]
    simp

theorem col_value_mask_congr {cs1 cs2 : Cells} (h : frameEq cs1 cs2)
    (x y m : Nat) : col_value_mask cs1 x y m = col_value_mask cs2 x y m := by
  unfold col_value_mask
  congr 1
  funext m cy
  rw [board_has_value_congr h x cy]
  by_cases hb : board_has_value cs2 x cy = true
  · have hlt : x < 9 ∧ cy < 9 := by
      by_contra hc
      rw [board_has_value] at hb
      rw [if_neg (by simp [is_in_bounds]; omega)] at hb
      cases hb
    have hv2 : (cs2 (pos9 x cy)).hasValue = true := by
      rw [board_has_value, if_pos (by simp [is_in_bounds, hlt.1, hlt.2])] at hb
      exact hb
    rw [hb, cellAt_congr_of_has h hv2]
  · rw [Bool.not_eq_true] at hb
    rw [hb]
    simp

theorem update_marks_potential_congr {cs1 cs2 : Cells} (h : frameEq cs1 cs2)
    (x y : Nat) :
    update_marks_potential cs1 x y = update_marks_potential cs2 x y := by
  unfold update_marks_potential
  rw [row_value_mask_congr h, col_value_mask_congr h]

/-! ## The initial per-cell pass -/

theorem init_pass_eq_fold (b : Board) :
    init_pass b = init_fold allCellPositions b := rfl

theorem board_update_marks_cells (b : Board) {x y : Nat} (hx : x < 9)
    (hy : y < 9) :
    (board_update_marks b x y).cells =
      writeCell b.cells x y (recomputed_cell b.cells x y) := by
  unfold board_update_marks recomputed_cell
  rw [if_pos (by simp [is_in_bounds, hx, hy])]

theorem init_fold_spec (l : List (Nat × Nat)) :
    ∀ (b : Board) (csO : Cells), frameEq b.cells csO →
      (∀ t ∈ l, t.1 < 9 ∧ t.2 < 9) →
      frameEq (init_fold l b).cells csO ∧
      (∀ t ∈ l, (csO (pos9 t.1 t.2)).hasValue = false →
        (init_fold l b).cells (pos9 t.1 t.2) = recomputed_cell csO t.1 t.2) ∧
      (∀ p, ((csO p).hasValue = true ∨ ∀ t ∈ l, p ≠ pos9 t.1 t.2) →
        (init_fold l b).cells p = b.cells p) := by
  induction l with
  | nil =>
    intro b csO hf _
    exact ⟨hf, by simp, fun p _ => rfl⟩
  | cons t rest ih =>
    intro b csO hf hl
    have hbt : t.1 < 9 ∧ t.2 < 9 := hl t (List.mem_cons_self t rest)
    have hlr : ∀ u ∈ rest, u.1 < 9 ∧ u.2 < 9 :=
      fun u hu => hl u (List.mem_cons_of_mem t hu)
    have hfold : init_fold (t :: rest) b =
        init_fold rest (if !board_has_value b.cells t.1 t.2 then
          board_update_marks b t.1 t.2 else b) := rfl
    cases hc : board_has_value b.cells t.1 t.2 with
    | true =>
      rw [hfold, hc]
      simp only [Bool.not_true, Bool.false_eq_true, if_false]
      obtain ⟨ihf, ihb, ihc⟩ := ih b csO hf hlr
      refine ⟨ihf, ?_, ?_⟩
      · intro u hu hufree
        rcases List.mem_cons.mp hu with rfl | hu2
        · have hset : (csO (pos9 u.1 u.2)).hasValue = true := by
            have hfr := (hf (pos9 u.1 u.2)).1
            rw [board_has_value, if_pos (by simp [is_in_bounds, hbt.1, hbt.2])]
              at hc
            rw [← hfr]
            exact hc
          rw [hset] at hufree
          cases hufree
        · exact ihb u hu2 hufree
      · intro p hp
        refine ihc p ?_
        rcases hp with hset | hnot
        · exact Or.inl hset
        · exact Or.inr fun u hu => hnot u (List.mem_cons_of_mem t hu)
    | false =>
      rw [hfold, hc]
      simp only [Bool.not_false, if_true]
      have hfree0 : (b.cells (pos9 t.1 t.2)).hasValue = false := by
        rw [board_has_value, if_pos (by simp [is_in_bounds, hbt.1, hbt.2])] at hc
        exact hc
      have hfreeO : (csO (pos9 t.1 t.2)).hasValue = false := by
        rw [← (hf (pos9 t.1 t.2)).1]
        exact hfree0
      have hcell : (board_update_marks b t.1 t.2).cells =
          writeCell b.cells t.1 t.2 (recomputed_cell b.cells t.1 t.2) :=
        board_update_marks_cells b hbt.1 hbt.2
      have hrecomp : recomputed_cell b.cells t.1 t.2 =
          recomputed_cell csO t.1 t.2 := by
        unfold recomputed_cell
        rw [update_marks_potential_congr hf]
      have hf1 : frameEq (board_update_marks b t.1 t.2).cells csO := by
        rw [hcell]
        exact frameEq_writeCell_free hf t.1 t.2 _ _ hfreeO
      obtain ⟨ihf, ihb, ihc⟩ := ih (board_update_marks b t.1 t.2) csO hf1 hlr
      refine ⟨ihf, ?_, ?_⟩
      · intro u hu hufree
        rcases List.mem_cons.mp hu with rfl | hu2
        · by_cases hclash : ∀ u2 ∈ rest, pos9 u.1 u.2 ≠ pos9 u2.1 u2.2
          · rw [ihc (pos9 u.1 u.2) (Or.inr hclash), hcell]
            have hw : writeCell b.cells u.1 u.2 (recomputed_cell b.cells u.1 u.2)
                (pos9 u.1 u.2) = recomputed_cell b.cells u.1 u.2 := by
              unfold writeCell
              rw [if_pos rfl]
            rw [hw, hrecomp]
          · push_neg at hclash
            obtain ⟨u2, hu2mem, hpeq⟩ := hclash
            obtain ⟨he1, he2⟩ :=
              pos9_inj hbt.1 (hlr u2 hu2mem).1 hpeq
            rw [hpeq]
            have hres := ihb u2 hu2mem (by rw [← hpeq]; exact hufree)
            rw [hres, ← he1, ← he2]
        · exact ihb u hu2 hufree
      · intro p hp
        have hstep : (board_update_marks b t.1 t.2).cells p = b.cells p := by
          rw [hcell]
          refine writeCell_apply_ne b.cells t.1 t.2 _ ?_
          rcases hp with hset | hnot
          · intro hpe
            rw [hpe, hfreeO] at hset
            cases hset
          · exact hnot t (List.mem_cons_self t rest)
        rcases hp with hset | hnot
        · rw [ihc p (Or.inl hset), hstep]
        · rw [ihc p (Or.inr fun u hu => hnot u (List.mem_cons_of_mem t hu)),
            hstep]

theorem or_fold_from (g : Nat → Nat) (q : Nat → Bool) (l : List Nat) :
    ∀ m, l.foldl (fun m i => if q i then m ||| g i else m) m =
      m ||| l.foldl (fun m i => if q i then m ||| g i else m) 0 := by
  induction l with
  | nil => intro m; simp
  | cons i rest ih =>
    intro m
    simp only [List.foldl_cons]
    by_cases hq : q i = true
    · rw [if_pos hq, if_pos hq, ih (m ||| g i), ih (0 ||| g i)]
      rw [Nat.zero_or, Nat.lor_assoc]
    · rw [if_neg hq, if_neg hq, ih m]

theorem row_value_mask_eq_placed (cs : Cells) {x y : Nat}
    (hfree : (cellAt cs x y).hasValue = false) :
    row_value_mask cs x y 0 = rowPlacedMask cs y := by
  unfold row_value_mask rowPlacedMask
  congr 1
  funext m cx
  by_cases hx : cx = x
  · subst hx
    have hb : board_has_value cs cx y = false := by
      unfold board_has_value
      split
      · exact hfree
      · rfl
    rw [hb]
    simp
  · have hbne : (cx != x) = true := by simp [hx]
    rw [hbne]
    simp

theorem col_value_mask_eq_placed (cs : Cells) {x y : Nat}
    (hfree : (cellAt cs x y).hasValue = false) :
    col_value_mask cs x y 0 = colPlacedMask cs x := by
  unfold col_value_mask colPlacedMask
  congr 1
  funext m cy
  by_cases hy : cy = y
  · subst hy
    have hb : board_has_value cs x cy = false := by
      unfold board_has_value
      split
      · exact hfree
      · rfl
    rw [hb]
    simp
  · have hbne : (cy != y) = true := by simp [hy]
    rw [hbne]
    simp

theorem update_marks_potential_eq_placed (cs : Cells) {x y : Nat}
    (hfree : (cellAt cs x y).hasValue = false) :
    update_marks_potential cs x y =
      (rowPlacedMask cs y ||| colPlacedMask cs x) ^^^ 511 := by
  unfold update_marks_potential
  rw [show col_value_mask cs x y (row_value_mask cs x y 0) =
      row_value_mask cs x y 0 ||| col_value_mask cs x y 0 from
    or_fold_from (fun cy => 1 <<< (cellAt cs x cy).value)
      (fun cy => cy != y && board_has_value cs x cy) (List.range 9)
      (row_value_mask cs x y 0)]
  rw [row_value_mask_eq_placed cs hfree, col_value_mask_eq_placed cs hfree]

/-! ## Bit-level lemmas -/

theorem one_shiftLeft_testBit_self (v : Nat) : (1 <<< v).testBit v = true := by
  rw [Nat.shiftLeft_eq, Nat.one_mul]
  exact Nat.testBit_two_pow_self

theorem one_shiftLeft_testBit_ne {v i : Nat} (h : i ≠ v) :
    (1 <<< v).testBit i = false := by
  rw [Nat.shiftLeft_eq, Nat.one_mul]
  exact Nat.testBit_two_pow_of_ne (fun he => h he.symm)

theorem testBit_511 (i : Nat) : (511 : Nat).testBit i = decide (i < 9) := by
  rw [show (511 : Nat) = 2 ^ 9 - 1 by norm_num, Nat.testBit_two_pow_sub_one]

theorem testBit_false_of_lt_512 {n i : Nat} (hn : n < 512) (hi : 9 ≤ i) :
    n.testBit i = false := by
  refine Nat.testBit_lt_two_pow (lt_of_lt_of_le hn ?_)
  calc (512 : Nat) = 2 ^ 9 := by norm_num
    _ ≤ 2 ^ i := Nat.pow_le_pow_right (by omega) hi

theorem lt_512_of_testBit {n : Nat} (h : ∀ i, 9 ≤ i → n.testBit i = false) :
    n < 512 := by
  have he : n = n % 2 ^ 9 := by
    refine Nat.eq_of_testBit_eq fun i => ?_
    rw [Nat.testBit_mod_two_pow]
    by_cases hi : i < 9
    · simp [hi]
    · rw [h i (by omega)]
      simp
  rw [he]
  have : 0 < 2 ^ 9 := by norm_num
  have := Nat.mod_lt n this
  omega

/-- The candidate set left at the swept cell by `board_update_marks_by_excl`
when the re-flipped bits were `S`, evaluated bitwise. -/
theorem excl_final_testBit (P S i : Nat) :
    ((((P ^^^ 511) ||| S) ^^^ 511)).testBit i =
      if i < 9 then (P.testBit i && !S.testBit i)
      else (P.testBit i || S.testBit i) := by
  rw [Nat.testBit_xor, Nat.testBit_lor, Nat.testBit_xor, testBit_511]
  by_cases hi : i < 9
  · rw [if_pos hi, decide_eq_true hi]
    cases P.testBit i <;> cases S.testBit i <;> rfl
  · rw [if_neg hi, decide_eq_false hi]
    cases P.testBit i <;> cases S.testBit i <;> rfl

/-! ## The exclusion pass: shape and effect -/

theorem excl_loop_shape (x y : Nat) :
    ∀ (fuel pot v : Nat) (ch : Bool) (cs : Cells),
      (cellAt cs x y).hasValue = false →
      ∃ S : Nat,
        excl_loop x y fuel cs pot v ch =
          (writeCell cs x y
            (Cell.free ((cellAt cs x y).potential ||| S)
              (cellAt cs x y).complexity),
            ch || decide (S ≠ 0)) ∧
        (∀ i, S.testBit i = true → v ≤ i ∧ pot.testBit (i - v) = true) := by
  intro fuel
  induction fuel with
  | zero =>
    intro pot v ch cs hfree
    refine ⟨0, ?_, by simp⟩
    rw [Nat.or_zero, cell_eta_free hfree, writeCell_cellAt_self]
    simp [excl_loop]
  | succ fuel ih =>
    intro pot v ch cs hfree
    unfold excl_loop
    by_cases hz : pot = 0
    · refine ⟨0, ?_, by simp⟩
      rw [if_pos hz, Nat.or_zero, cell_eta_free hfree, writeCell_cellAt_self]
      simp
    · rw [if_neg hz]
      by_cases hbr : (pot % 2 = 1 && !board_can_quad_set_value cs x y v) = true
      · rw [if_pos hbr]
        have hm2 : pot % 2 = 1 := by
          rcases (Bool.and_eq_true _ _).mp hbr with ⟨h1, _⟩
          exact of_decide_eq_true h1
        set cs1 := writeCell cs x y
          (Cell.free ((cellAt cs x y).potential ||| (1 <<< v))
            (cellAt cs x y).complexity) with hcs1
        have hfree1 : (cellAt cs1 x y).hasValue = false := by
          rw [hcs1, cellAt_writeCell_self]
          rfl
        obtain ⟨S, hS, hSb⟩ := ih (pot / 2) (v + 1) true cs1 hfree1
        refine ⟨(1 <<< v) ||| S, ?_, ?_⟩
        · rw [hS, hcs1, cellAt_writeCell_self, writeCell_writeCell]
          have hne : ((1 <<< v) ||| S) ≠ 0 := by
            intro h0
            have hb : ((1 <<< v) ||| S).testBit v = true := by
              rw [Nat.testBit_lor, one_shiftLeft_testBit_self]
              rfl
            rw [h0] at hb
            rw [Nat.zero_testBit] at hb
            cases hb
          simp only [Cell.potential, Cell.complexity, Nat.lor_assoc]
          rw [decide_eq_true hne, Bool.true_or, Bool.or_true]
        · intro i hbit
          rw [Nat.testBit_lor] at hbit
          rcases (Bool.or_eq_true _ _).mp hbit with hb | hb
          · have hiv : i = v := by
              by_contra hne
              rw [one_shiftLeft_testBit_ne hne] at hb
              cases hb
            subst hiv
            refine ⟨Nat.le_refl i, ?_⟩
            rw [Nat.sub_self, Nat.testBit_zero]
            exact decide_eq_true hm2
          · obtain ⟨hle, hdb⟩ := hSb i hb
            refine ⟨by omega, ?_⟩
            rw [Nat.testBit_div_two] at hdb
            have hsub : i - v = i - (v + 1) + 1 := by omega
            rw [hsub]
            exact hdb
      · rw [if_neg hbr]
        obtain ⟨S, hS, hSb⟩ := ih (pot / 2) (v + 1) ch cs hfree
        refine ⟨S, hS, ?_⟩
        intro i hbit
        obtain ⟨hle, hdb⟩ := hSb i hbit
        refine ⟨by omega, ?_⟩
        rw [Nat.testBit_div_two] at hdb
        have hsub : i - v = i - (v + 1) + 1 := by omega
        rw [hsub]
        exact hdb

theorem excl_shape (cs : Cells) {x y : Nat} (hx : x < 9) (hy : y < 9) :
    ∃ S : Nat,
      board_update_marks_by_excl cs x y =
        (writeCell cs x y
          (Cell.free ((((cellAt cs x y).potential ^^^ 511) ||| S) ^^^ 511)
            (cellAt cs x y).complexity),
          decide (S ≠ 0)) ∧
      (∀ i, S.testBit i = true → (cellAt cs x y).potential.testBit i = true) := by
  unfold board_update_marks_by_excl
  rw [if_pos (by simp [is_in_bounds, hx, hy])]
  have hfree1 : (cellAt (writeCell cs x y
      (Cell.free ((cellAt cs x y).potential ^^^ 511)
        (cellAt cs x y).complexity)) x y).hasValue = false := by
    rw [cellAt_writeCell_self]
    rfl
  obtain ⟨S, hS, hSb⟩ := excl_loop_shape x y 16 (cellAt cs x y).potential 0
    false _ hfree1
  refine ⟨S, ?_, fun i hb => by simpa using (hSb i hb).2⟩
  dsimp only
  rw [hS, cellAt_writeCell_self, cellAt_writeCell_self]
  simp only [Cell.potential, Cell.complexity, writeCell_writeCell,
    Bool.false_or]

/-! ## Counting candidate bits -/

theorem countBitsAux_le (f : Nat) :
    ∀ a b : Nat, (∀ i, a.testBit i = true → b.testBit i = true) →
      countBitsAux f a ≤ countBitsAux f b := by
  induction f with
  | zero => intro a b _; exact Nat.le_refl _
  | succ f ih =>
    intro a b h
    unfold countBitsAux
    by_cases ha : a = 0
    · simp [ha]
    · rw [if_neg ha]
      have hb : b ≠ 0 := by
        intro hb0
        obtain ⟨i, hi⟩ := Nat.ne_zero_implies_bit_true ha
        have hbi := h i hi
        rw [hb0, Nat.zero_testBit] at hbi
        cases hbi
      rw [if_neg hb]
      have h2 : ∀ i, (a / 2).testBit i = true → (b / 2).testBit i = true := by
        intro i hi
        rw [Nat.testBit_div_two] at hi ⊢
        exact h _ hi
      have h0 : a % 2 ≤ b % 2 := by
        rcases Nat.mod_two_eq_zero_or_one a with h1 | h1
        · rw [h1]; exact Nat.zero_le _
        · have hx := h 0
          rw [Nat.testBit_zero, Nat.testBit_zero] at hx
          have hb1 := hx (decide_eq_true h1)
          rw [h1, of_decide_eq_true hb1]
      exact Nat.add_le_add h0 (ih _ _ h2)

theorem countBitsAux_pos (f : Nat) :
    ∀ b : Nat, b ≠ 0 → b < 2 ^ (f + 1) → 1 ≤ countBitsAux (f + 1) b := by
  induction f with
  | zero =>
    intro b hb hlt
    have hb1 : b = 1 := by omega
    subst hb1
    decide
  | succ f ih =>
    intro b hb hlt
    unfold countBitsAux
    rw [if_neg hb]
    rcases Nat.mod_two_eq_zero_or_one b with h1 | h1
    · have hbd : b / 2 ≠ 0 := by omega
      have hlt2 : b / 2 < 2 ^ (f + 1) := by
        rw [pow_succ] at hlt
        omega
      have := ih (b / 2) hbd hlt2
      omega
    · omega

theorem countBitsAux_lt (f : Nat) :
    ∀ a b : Nat, (∀ i, a.testBit i = true → b.testBit i = true) →
      (∃ i, b.testBit i = true ∧ a.testBit i = false) → b < 2 ^ f →
      countBitsAux f a < countBitsAux f b := by
  induction f with
  | zero =>
    intro a b _ hex hlt
    obtain ⟨i, hbi, _⟩ := hex
    have hb0 : b = 0 := by omega
    rw [hb0, Nat.zero_testBit] at hbi
    cases hbi
  | succ f ih =>
    intro a b h hex hlt
    obtain ⟨i, hbi, hai⟩ := hex
    have hb : b ≠ 0 := by
      intro h0
      rw [h0, Nat.zero_testBit] at hbi
      cases hbi
    unfold countBitsAux
    rw [if_neg hb]
    have h2 : ∀ j, (a / 2).testBit j = true → (b / 2).testBit j = true := by
      intro j hj
      rw [Nat.testBit_div_two] at hj ⊢
      exact h _ hj
    have h0 : a % 2 ≤ b % 2 := by
      rcases Nat.mod_two_eq_zero_or_one a with h1 | h1
      · rw [h1]; exact Nat.zero_le _
      · have hx := h 0
        rw [Nat.testBit_zero, Nat.testBit_zero] at hx
        have hb1 := hx (decide_eq_true h1)
        rw [h1, of_decide_eq_true hb1]
    by_cases ha : a = 0
    · rw [if_pos ha]
      have hp := countBitsAux_pos f b hb hlt
      unfold countBitsAux at hp
      rw [if_neg hb] at hp
      omega
    · rw [if_neg ha]
      cases i with
      | zero =>
        rw [Nat.testBit_zero] at hbi hai
        have hb1 : b % 2 = 1 := of_decide_eq_true hbi
        have ha1 : a % 2 = 0 := by
          rcases Nat.mod_two_eq_zero_or_one a with h1 | h1
          · exact h1
          · rw [decide_eq_true h1] at hai; cases hai
        have := countBitsAux_le f (a / 2) (b / 2) h2
        omega
      | succ i =>
        rw [Nat.testBit_succ] at hbi hai
        have hlt2 : b / 2 < 2 ^ f := by
          rw [pow_succ] at hlt
          omega
        have := ih (a / 2) (b / 2) h2 ⟨i, hbi, hai⟩ hlt2
        omega

theorem countBits_le (a b : Nat)
    (h : ∀ i, a.testBit i = true → b.testBit i = true) :
    countBits a ≤ countBits b := countBitsAux_le 16 a b h

theorem countBits_lt (a b : Nat)
    (h : ∀ i, a.testBit i = true → b.testBit i = true)
    (h2 : ∃ i, b.testBit i = true ∧ a.testBit i = false) (hb : b < 512) :
    countBits a < countBits b :=
  countBitsAux_lt 16 a b h h2 (by omega)

theorem sum_map_le {α : Type} (l : List α) (f g : α → Nat)
    (h : ∀ a ∈ l, f a ≤ g a) : (l.map f).sum ≤ (l.map g).sum := by
  induction l with
  | nil => exact Nat.le_refl _
  | cons a rest ih =>
    simp only [List.map_cons, List.sum_cons]
    have h1 := h a (List.mem_cons_self a rest)
    have h2 := ih fun u hu => h u (List.mem_cons_of_mem a hu)
    omega

theorem sum_map_lt {α : Type} (l : List α) (f g : α → Nat)
    (h : ∀ a ∈ l, f a ≤ g a) (h2 : ∃ a ∈ l, f a < g a) :
    (l.map f).sum < (l.map g).sum := by
  induction l with
  | nil =>
    obtain ⟨a, ha, _⟩ := h2
    cases ha
  | cons a rest ih =>
    simp only [List.map_cons, List.sum_cons]
    obtain ⟨u, hu, hlt⟩ := h2
    rcases List.mem_cons.mp hu with rfl | hu2
    · have h2b := sum_map_le rest f g fun w hw => h w (List.mem_cons_of_mem u hw)
      omega
    · have h1 := h a (List.mem_cons_self a rest)
      have := ih (fun w hw => h w (List.mem_cons_of_mem a hw)) ⟨u, hu2, hlt⟩
      omega

theorem subPot_refl (cs : Cells) : subPot cs cs := fun _ _ h => h

theorem subPot_trans {cs0 cs1 cs2 : Cells} (h01 : subPot cs0 cs1)
    (h12 : subPot cs1 cs2) : subPot cs0 cs2 :=
  fun p i h => h01 p i (h12 p i h)

theorem Wf512_of_subPot {cs0 cs : Cells} (hwf : Wf512 cs0)
    (hsub : subPot cs0 cs) : Wf512 cs := by
  intro p hp
  refine lt_512_of_testBit fun i hi => ?_
  by_cases hb : ((cs p).potential).testBit i = true
  · have hc := hsub p i hb
    rw [testBit_false_of_lt_512 (hwf p hp) hi] at hc
    cases hc
  · exact Bool.not_eq_true _ |>.mp hb

theorem totalCount_le_of_sub {cs0 cs : Cells} (h : subPot cs0 cs) :
    totalCount cs ≤ totalCount cs0 := by
  unfold totalCount
  exact sum_map_le _ _ _ fun p _ => countBits_le _ _ (h p)

theorem totalCount_lt_of_point {cs1 cs0 : Cells} (hsub : subPot cs0 cs1)
    {p0 : Nat} (hp0 : p0 < 81)
    (hlt : countBits ((cs1 p0).potential) < countBits ((cs0 p0).potential)) :
    totalCount cs1 < totalCount cs0 := by
  unfold totalCount
  refine sum_map_lt _ _ _ (fun p _ => countBits_le _ _ (hsub p)) ?_
  exact ⟨p0, List.mem_range.mpr hp0, hlt⟩

/-- The shared behaviour of the sweep steps: preserve the decided frame,
only shrink candidate sets, change nothing when reporting no change, write
only inside the board area, and strictly decrease the candidate-bit count
when reporting a change on a well-formed array. -/
def GoodStep {β : Type} (step : Cells → β → Cells × Bool) (t : β) : Prop :=
  ∀ cs : Cells,
    frameEq (step cs t).1 cs ∧
    subPot cs (step cs t).1 ∧
    ((step cs t).2 = false → (step cs t).1 = cs) ∧
    (∀ p, 81 ≤ p → (step cs t).1 p = cs p) ∧
    (Wf512 cs → (step cs t).2 = true →
      totalCount (step cs t).1 < totalCount cs)

theorem flag_fold_cons {β : Type} (step : Cells → β → Cells × Bool)
    (t : β) (l : List β) (a : Cells × Bool) :
    flag_fold step (t :: l) a =
      flag_fold step l ((step a.1 t).1, a.2 || (step a.1 t).2) := rfl

theorem flag_fold_spec {β : Type} (step : Cells → β → Cells × Bool)
    (l : List β) :
    (∀ t ∈ l, GoodStep step t) →
    ∀ a : Cells × Bool,
      frameEq (flag_fold step l a).1 a.1 ∧
      subPot a.1 (flag_fold step l a).1 ∧
      ((flag_fold step l a).2 = false →
        (flag_fold step l a).1 = a.1 ∧ a.2 = false) ∧
      (∀ p, 81 ≤ p → (flag_fold step l a).1 p = a.1 p) := by
  induction l with
  | nil =>
    intro _ a
    exact ⟨frameEq_refl _, subPot_refl _, fun h => ⟨rfl, h⟩, fun _ _ => rfl⟩
  | cons t rest ih =>
    intro hstep a
    obtain ⟨hf, hs, hid, hhi, _⟩ := hstep t (List.mem_cons_self t rest) a.1
    rw [flag_fold_cons]
    obtain ⟨ihf, ihs, ihid, ihhi⟩ :=
      ih (fun u hu => hstep u (List.mem_cons_of_mem t hu))
        ((step a.1 t).1, a.2 || (step a.1 t).2)
    refine ⟨frameEq_trans ihf hf, subPot_trans hs ihs, ?_, ?_⟩
    · intro hfl
      obtain ⟨hb, hflags⟩ := ihid hfl
      have h2 : (step a.1 t).2 = false := by
        cases h2 : (step a.1 t).2
        · rfl
        · rw [h2, Bool.or_true] at hflags; cases hflags
      have ha2 : a.2 = false := by
        cases ha2 : a.2
        · rfl
        · rw [ha2, Bool.true_or] at hflags; cases hflags
      exact ⟨by rw [hb, hid h2], ha2⟩
    · intro p hp
      rw [ihhi p hp, hhi p hp]

theorem flag_fold_measure {β : Type} (step : Cells → β → Cells × Bool)
    (l : List β) (cs0 : Cells) (hwf : Wf512 cs0) :
    (∀ t ∈ l, GoodStep step t) →
    ∀ a : Cells × Bool, subPot cs0 a.1 →
      totalCount (flag_fold step l a).1 ≤ totalCount a.1 ∧
      ((flag_fold step l a).2 = true → a.2 = true ∨
        totalCount (flag_fold step l a).1 < totalCount a.1) := by
  induction l with
  | nil =>
    intro _ a _
    exact ⟨Nat.le_refl _, fun h => Or.inl h⟩
  | cons t rest ih =>
    intro hstep a hsub
    have hstep2 : ∀ u ∈ rest, GoodStep step u :=
      fun u hu => hstep u (List.mem_cons_of_mem t hu)
    obtain ⟨_, hs, hid, _, hstrict⟩ := hstep t (List.mem_cons_self t rest) a.1
    rw [flag_fold_cons]
    cases h2 : (step a.1 t).2 with
    | false =>
      rw [hid h2]
      obtain ⟨ihle, ihstrict⟩ := ih hstep2 (a.1, a.2 || false) hsub
      refine ⟨ihle, fun hh => ?_⟩
      rcases ihstrict hh with hx | hx
      · exact Or.inl (by simpa using hx)
      · exact Or.inr hx
    | true =>
      obtain ⟨ihle, ihstrict⟩ :=
        ih hstep2 ((step a.1 t).1, a.2 || true) (subPot_trans hsub hs)
      have hlt := hstrict (Wf512_of_subPot hwf hsub) h2
      have hle2 : totalCount ((step a.1 t).1, a.2 || true).1 =
          totalCount (step a.1 t).1 := rfl
      rw [hle2] at ihle
      exact ⟨Nat.le_trans ihle (Nat.le_of_lt hlt),
        fun _ => Or.inr (Nat.lt_of_le_of_lt ihle hlt)⟩


theorem writeCell_apply_self (cs : Cells) (x y : Nat) (c : Cell) :
    writeCell cs x y c (pos9 x y) = c := by
  unfold writeCell
  rw [if_pos rfl]

theorem pos9_lt_81 {x y : Nat} (hx : x < 9) (hy : y < 9) : pos9 x y < 81 := by
  unfold pos9
  omega

theorem excl_cell_step_good : ∀ t ∈ allCellPositions, GoodStep excl_cell_step t := by
  intro t ht cs
  obtain ⟨hx, hy⟩ := allCellPositions_bounds t ht
  unfold excl_cell_step
  cases hc : board_has_value cs t.1 t.2 with
  | true =>
    simp only [hc, Bool.not_true, Bool.false_eq_true, if_false]
    refine ⟨frameEq_refl _, subPot_refl _, ?_, ?_, ?_⟩
    · exact fun _ => trivial
    · exact fun _ _ => trivial
    · exact fun _ h => by cases h
  | false =>
    simp only [hc, Bool.not_false, if_true]
    have hfree : (cellAt cs t.1 t.2).hasValue = false := by
      rw [board_has_value_eq cs hx hy] at hc
      exact hc
    obtain ⟨S, heq, hSsub⟩ := excl_shape cs hx hy
    rw [heq]
    set P := (cellAt cs t.1 t.2).potential with hP
    set F := ((P ^^^ 511) ||| S) ^^^ 511 with hF
    have hFsub : ∀ i, F.testBit i = true → P.testBit i = true := by
      intro i hb
      rw [hF, excl_final_testBit] at hb
      by_cases hi : i < 9
      · rw [if_pos hi] at hb
        exact ((Bool.and_eq_true _ _).mp hb).1
      · rw [if_neg hi] at hb
        rcases (Bool.or_eq_true _ _).mp hb with h | h
        · exact h
        · exact hSsub i h
    have hsubw : subPot cs
        (writeCell cs t.1 t.2 (Cell.free F (cellAt cs t.1 t.2).complexity)) := by
      intro p i hb
      by_cases hp : p = pos9 t.1 t.2
      · subst hp
        rw [writeCell_apply_self] at hb
        exact hFsub i hb
      · rw [writeCell_apply_ne _ _ _ _ hp] at hb
        exact hb
    refine ⟨?_, ?_, ?_, ?_, ?_⟩
    · exact frameEq_writeCell_free (frameEq_refl cs) t.1 t.2 _ _ hfree
    · exact hsubw
    · intro hfl
      have hS0 : S = 0 := by
        by_contra hne
        rw [decide_eq_true hne] at hfl
        cases hfl
      have hFP : F = P := by
        refine Nat.eq_of_testBit_eq fun i => ?_
        rw [hF, excl_final_testBit, hS0]
        by_cases hi : i < 9
        · simp [hi, Nat.zero_testBit]
        · simp [hi, Nat.zero_testBit]
      show writeCell cs t.1 t.2 (Cell.free F (cellAt cs t.1 t.2).complexity) = cs
      rw [hFP, hP, cell_eta_free hfree, writeCell_cellAt_self]
    · intro p hp
      refine writeCell_apply_ne _ _ _ _ ?_
      have := pos9_lt_81 hx hy
      omega
    · intro hwf hfl
      have hSne : S ≠ 0 := of_decide_eq_true hfl
      obtain ⟨i, hSi⟩ := Nat.ne_zero_implies_bit_true hSne
      have hPi : P.testBit i = true := hSsub i hSi
      have hPlt : P < 512 := hwf (pos9 t.1 t.2) (pos9_lt_81 hx hy)
      have hi9 : i < 9 := by
        by_contra h9
        rw [testBit_false_of_lt_512 hPlt (by omega)] at hPi
        cases hPi
      have hFi : F.testBit i = false := by
        rw [hF, excl_final_testBit, if_pos hi9, hSi]
        simp
      have hcnt : countBits F < countBits P :=
        countBits_lt F P hFsub ⟨i, hPi, hFi⟩ hPlt
      refine totalCount_lt_of_point hsubw (pos9_lt_81 hx hy) ?_
      show countBits ((writeCell cs t.1 t.2
          (Cell.free F (cellAt cs t.1 t.2).complexity)) (pos9 t.1 t.2)).potential <
        countBits ((cs (pos9 t.1 t.2)).potential)
      rw [writeCell_apply_self]
      exact hcnt


theorem quadCellList_bounds {x y : Nat} (hx : x < 9) (hy : y < 9) :
    ∀ u ∈ quadCellList x y, u.1 < 9 ∧ u.2 < 9 := by
  intro u hu
  unfold quadCellList at hu
  obtain ⟨i, hi, rfl⟩ := List.mem_map.mp hu
  have h9 := List.mem_range.mp hi
  unfold TO_QUAD
  constructor <;> [skip; skip] <;> simp only [] <;> omega

theorem is_marked_iff_testBit (cs : Cells) {x y v : Nat} (hx : x < 9)
    (hy : y < 9) (hv : v < 9) :
    board_is_marked cs x y v = true ↔
      ((cellAt cs x y).potential).testBit v = true := by
  unfold board_is_marked
  rw [if_pos (by simp [is_in_bounds, is_valid_value, hx, hy, hv])]
  rw [decide_eq_true_eq]
  rw [Nat.shiftLeft_eq, Nat.one_mul, Nat.and_two_pow]
  cases h : ((cellAt cs x y).potential).testBit v with
  | false =>
    simp [h]
  | true =>
    simp [h]

theorem count_quad_loop_unique (cs : Cells) (v : Nat)
    (Q : Nat × Nat → Prop) :
    ∀ (l : List (Nat × Nat)) (r : CountResult),
      (∀ u ∈ l, board_has_value cs u.1 u.2 = false →
        board_is_marked cs u.1 u.2 v = true → Q u) →
      (∀ u, r.unique = some u → Q u) →
      ∀ u, (count_quad_loop cs v l r).unique = some u → Q u := by
  intro l
  induction l with
  | nil =>
    intro r _ hr u hu
    exact hr u hu
  | cons t rest ih =>
    intro r hl hr u hu
    unfold count_quad_loop at hu
    by_cases h1 : (!board_has_value cs t.1 t.2 &&
        board_is_marked cs t.1 t.2 v) = true
    · rw [if_pos h1] at hu
      obtain ⟨hnv, hmk⟩ := (Bool.and_eq_true _ _).mp h1
      have hfree : board_has_value cs t.1 t.2 = false := by
        cases hc : board_has_value cs t.1 t.2
        · rfl
        · rw [hc] at hnv; cases hnv
      refine ih _ (fun w hw => hl w (List.mem_cons_of_mem t hw)) ?_ u hu
      intro w hw
      dsimp only at hw
      by_cases hcnt : r.count + 1 = 1
      · rw [if_pos hcnt] at hw
        injection hw with he
        subst he
        exact hl t (List.mem_cons_self t rest) hfree hmk
      · rw [if_neg hcnt] at hw
        cases hw
    · rw [if_neg h1] at hu
      by_cases h2 : (board_has_value cs t.1 t.2 &&
          (board_get_value cs t.1 t.2 == v)) = true
      · rw [if_pos h2] at hu
        exact hr u hu
      · rw [if_neg h2] at hu
        exact ih _ (fun w hw => hl w (List.mem_cons_of_mem t hw)) hr u hu


theorem quad_value_step_good {x y : Nat} (hx : x < 9) (hy : y < 9) :
    ∀ v ∈ List.range 9, GoodStep (fun cs2 v => quad_value_step cs2 x y v) v := by
  intro v hvm cs
  have hv9 : v < 9 := List.mem_range.mp hvm
  dsimp only
  unfold quad_value_step
  by_cases hset : (board_count_quad_potentials cs x y v).is_set = true
  · rw [if_pos hset]
    exact ⟨frameEq_refl _, subPot_refl _, fun _ => rfl, fun _ _ => rfl,
      fun _ h => by cases h⟩
  · rw [if_neg hset]
    cases hu : (board_count_quad_potentials cs x y v).unique with
    | none =>
      exact ⟨frameEq_refl _, subPot_refl _, fun _ => rfl, fun _ _ => rfl,
        fun _ h => by cases h⟩
    | some u =>
      have hQ : board_has_value cs u.1 u.2 = false ∧
          board_is_marked cs u.1 u.2 v = true ∧ u.1 < 9 ∧ u.2 < 9 := by
        have hcq : board_count_quad_potentials cs x y v =
            count_quad_loop cs v (quadCellList x y)
              { count := 0, unique := none, is_set := false } := by
          unfold board_count_quad_potentials
          rw [if_pos (by simp [is_in_bounds, is_valid_value, hx, hy, hv9])]
        refine count_quad_loop_unique cs v
          (fun w => board_has_value cs w.1 w.2 = false ∧
            board_is_marked cs w.1 w.2 v = true ∧ w.1 < 9 ∧ w.2 < 9)
          (quadCellList x y) { count := 0, unique := none, is_set := false }
          ?_ ?_ u ?_
        · intro w hw hwf hwm
          obtain ⟨hw1, hw2⟩ := quadCellList_bounds hx hy w hw
          exact ⟨hwf, hwm, hw1, hw2⟩
        · intro w hw
          cases hw
        · rw [← hcq]
          exact hu
      obtain ⟨hufree_b, humark_b, hub1, hub2⟩ := hQ
      dsimp only
      have hufree : (cellAt cs u.1 u.2).hasValue = false := by
        rw [board_has_value_eq cs hub1 hub2] at hufree_b
        exact hufree_b
      have humark : ((cellAt cs u.1 u.2).potential).testBit v = true :=
        (is_marked_iff_testBit cs hub1 hub2 hv9).mp humark_b
      have hsingle_sub : ∀ i, ((1 <<< v) : Nat).testBit i = true →
          ((cellAt cs u.1 u.2).potential).testBit i = true := by
        intro i hb
        by_cases hiv : i = v
        · subst hiv
          exact humark
        · rw [one_shiftLeft_testBit_ne hiv] at hb
          cases hb
      by_cases hne : (cellAt cs u.1 u.2).potential ≠ 1 <<< v
      · rw [if_pos hne]
        have hsubw : subPot cs (writeCell cs u.1 u.2 (Cell.free (1 <<< v) 1)) := by
          intro p i hb
          by_cases hp : p = pos9 u.1 u.2
          · subst hp
            rw [writeCell_apply_self] at hb
            exact hsingle_sub i hb
          · rw [writeCell_apply_ne _ _ _ _ hp] at hb
            exact hb
        refine ⟨?_, hsubw, ?_, ?_, ?_⟩
        · exact frameEq_writeCell_free (frameEq_refl cs) u.1 u.2 _ _ hufree
        · intro hfl
          cases hfl
        · intro p hp
          refine writeCell_apply_ne _ _ _ _ ?_
          have := pos9_lt_81 hub1 hub2
          omega
        · intro hwf _
          have hPlt : (cellAt cs u.1 u.2).potential < 512 :=
            hwf (pos9 u.1 u.2) (pos9_lt_81 hub1 hub2)
          have hnot : ¬ ∀ i, ((cellAt cs u.1 u.2).potential).testBit i = true →
              ((1 <<< v) : Nat).testBit i = true := by
            intro hall
            exact hne (Nat.eq_of_testBit_eq fun i => by
              cases hb : ((cellAt cs u.1 u.2).potential).testBit i with
              | true =>
                rw [hall i hb]
              | false =>
                cases hb2 : ((1 <<< v) : Nat).testBit i with
                | false => rfl
                | true =>
                  rw [hsingle_sub i hb2] at hb
                  cases hb
              )
          push_neg at hnot
          obtain ⟨i, hPi, hvi⟩ := hnot
          have hcnt : countBits (1 <<< v) < countBits (cellAt cs u.1 u.2).potential :=
            countBits_lt _ _ hsingle_sub
              ⟨i, hPi, Bool.not_eq_true _ |>.mp hvi⟩ hPlt
          refine totalCount_lt_of_point hsubw (pos9_lt_81 hub1 hub2) ?_
          show countBits ((writeCell cs u.1 u.2 (Cell.free (1 <<< v) 1))
              (pos9 u.1 u.2)).potential <
            countBits ((cs (pos9 u.1 u.2)).potential)
          rw [writeCell_apply_self]
          exact hcnt
      · rw [if_neg hne]
        exact ⟨frameEq_refl _, subPot_refl _, fun _ => rfl, fun _ _ => rfl,
          fun _ h => by cases h⟩

theorem quad_base_step_good : ∀ t ∈ quadBasePositions, GoodStep quad_base_step t := by
  intro t ht cs
  obtain ⟨hx, hy⟩ := quadBasePositions_bounds t ht
  unfold quad_base_step board_update_marks_by_quad
  rw [if_pos (by simp [is_in_bounds, hx, hy])]
  obtain ⟨hf, hs, hid, hhi⟩ :=
    flag_fold_spec _ (List.range 9) (quad_value_step_good hx hy) (cs, false)
  refine ⟨hf, hs, fun hfl => (hid hfl).1, hhi, ?_⟩
  intro hwf hfl
  obtain ⟨hle, hstrict⟩ :=
    flag_fold_measure _ (List.range 9) cs hwf (quad_value_step_good hx hy)
      (cs, false) (subPot_refl cs)
  rcases hstrict hfl with h | h
  · cases h
  · exact h


theorem excl_sweep_facts (cs : Cells) :
    frameEq (excl_sweep cs).1 cs ∧ subPot cs (excl_sweep cs).1 ∧
    ((excl_sweep cs).2 = false → (excl_sweep cs).1 = cs) ∧
    (∀ p, 81 ≤ p → (excl_sweep cs).1 p = cs p) ∧
    (Wf512 cs → (excl_sweep cs).2 = true →
      totalCount (excl_sweep cs).1 < totalCount cs) := by
  unfold excl_sweep
  obtain ⟨hf, hs, hid, hhi⟩ :=
    flag_fold_spec _ _ excl_cell_step_good (cs, false)
  refine ⟨hf, hs, fun h => (hid h).1, hhi, ?_⟩
  intro hwf hfl
  obtain ⟨_, hstrict⟩ :=
    flag_fold_measure _ _ cs hwf excl_cell_step_good (cs, false)
      (subPot_refl cs)
  rcases hstrict hfl with h | h
  · cases h
  · exact h

theorem quad_sweep_facts (cs : Cells) :
    frameEq (quad_sweep cs).1 cs ∧ subPot cs (quad_sweep cs).1 ∧
    ((quad_sweep cs).2 = false → (quad_sweep cs).1 = cs) ∧
    (∀ p, 81 ≤ p → (quad_sweep cs).1 p = cs p) ∧
    (Wf512 cs → (quad_sweep cs).2 = true →
      totalCount (quad_sweep cs).1 < totalCount cs) := by
  unfold quad_sweep
  obtain ⟨hf, hs, hid, hhi⟩ :=
    flag_fold_spec _ _ quad_base_step_good (cs, false)
  refine ⟨hf, hs, fun h => (hid h).1, hhi, ?_⟩
  intro hwf hfl
  obtain ⟨_, hstrict⟩ :=
    flag_fold_measure _ _ cs hwf quad_base_step_good (cs, false)
      (subPot_refl cs)
  rcases hstrict hfl with h | h
  · cases h
  · exact h

theorem marks_pass_cells_eq (b : Board) :
    (marks_pass b).1.cells = (quad_sweep (excl_sweep b.cells).1).1 := by
  simp only [marks_pass]

theorem marks_pass_flag_eq (b : Board) :
    (marks_pass b).2 =
      ((excl_sweep b.cells).2 || (quad_sweep (excl_sweep b.cells).1).2) := by
  simp only [marks_pass]

theorem marks_pass_facts (b : Board) :
    frameEq (marks_pass b).1.cells b.cells ∧
    subPot b.cells (marks_pass b).1.cells ∧
    ((marks_pass b).2 = false → (marks_pass b).1.cells = b.cells) ∧
    (∀ p, 81 ≤ p → (marks_pass b).1.cells p = b.cells p) ∧
    (Wf512 b.cells → (marks_pass b).2 = true →
      totalCount (marks_pass b).1.cells < totalCount b.cells) := by
  obtain ⟨ef, es, eid, ehi, estrict⟩ := excl_sweep_facts b.cells
  obtain ⟨qf, qs, qid, qhi, qstrict⟩ := quad_sweep_facts (excl_sweep b.cells).1
  refine ⟨?_, ?_, ?_, ?_, ?_⟩
  · rw [marks_pass_cells_eq]
    exact frameEq_trans qf ef
  · rw [marks_pass_cells_eq]
    exact subPot_trans es qs
  · intro h
    rw [marks_pass_flag_eq] at h
    have he : (excl_sweep b.cells).2 = false := by
      cases hc : (excl_sweep b.cells).2
      · rfl
      · rw [hc, Bool.true_or] at h; cases h
    have hq : (quad_sweep (excl_sweep b.cells).1).2 = false := by
      cases hc : (quad_sweep (excl_sweep b.cells).1).2
      · rfl
      · rw [hc, Bool.or_true] at h; cases h
    rw [marks_pass_cells_eq, qid hq, eid he]
  · intro p hp
    rw [marks_pass_cells_eq, qhi p hp, ehi p hp]
  · intro hwf h
    rw [marks_pass_flag_eq] at h
    cases hc : (excl_sweep b.cells).2 with
    | false =>
      have he := eid hc
      rw [hc, Bool.false_or] at h
      have hwf2 : Wf512 (excl_sweep b.cells).1 := by
        rw [he]; exact hwf
      have hlt := qstrict hwf2 h
      rw [marks_pass_cells_eq]
      calc totalCount (quad_sweep (excl_sweep b.cells).1).1
          < totalCount (excl_sweep b.cells).1 := hlt
        _ = totalCount b.cells := by rw [he]
    | true =>
      have hlt := estrict hwf hc
      have hle : totalCount (quad_sweep (excl_sweep b.cells).1).1 ≤
          totalCount (excl_sweep b.cells).1 := totalCount_le_of_sub qs
      rw [marks_pass_cells_eq]
      omega

theorem marks_pass_congr {b1 b2 : Board} (h : b1.cells = b2.cells) :
    (marks_pass b1).1.cells = (marks_pass b2).1.cells ∧
    (marks_pass b1).2 = (marks_pass b2).2 := by
  unfold marks_pass
  rw [h]
  exact ⟨rfl, rfl⟩

theorem marks_loop_facts : ∀ (fuel : Nat) (b : Board),
    frameEq (marks_loop fuel b).cells b.cells ∧
    subPot b.cells (marks_loop fuel b).cells ∧
    (∀ p, 81 ≤ p → (marks_loop fuel b).cells p = b.cells p) := by
  intro fuel
  induction fuel with
  | zero =>
    intro b
    exact ⟨frameEq_refl _, subPot_refl _, fun _ _ => rfl⟩
  | succ f ih =>
    intro b
    obtain ⟨pf, ps, pid, phi, _⟩ := marks_pass_facts b
    unfold marks_loop
    cases h : (marks_pass b).2 with
    | false =>
      simp only [h, Bool.false_eq_true, if_false]
      exact ⟨pf, ps, phi⟩
    | true =>
      simp only [h, if_true]
      obtain ⟨lf, ls, lhi⟩ := ih (marks_pass b).1
      exact ⟨frameEq_trans lf pf, subPot_trans ps ls,
        fun p hp => by rw [lhi p hp, phi p hp]⟩

theorem marks_loop_congr : ∀ (fuel : Nat) {b1 b2 : Board},
    b1.cells = b2.cells →
    (marks_loop fuel b1).cells = (marks_loop fuel b2).cells := by
  intro fuel
  induction fuel with
  | zero =>
    intro b1 b2 h
    exact h
  | succ f ih =>
    intro b1 b2 h
    obtain ⟨hc, hf⟩ := marks_pass_congr h
    unfold marks_loop
    dsimp only
    cases h2 : (marks_pass b2).2 with
    | false =>
      rw [hf, h2]
      simp only [Bool.false_eq_true, if_false]
      exact hc
    | true =>
      rw [hf, h2]
      simp only [if_true]
      exact ih hc

theorem marks_loop_fixpoint : ∀ (fuel : Nat) (b : Board),
    Wf512 b.cells → totalCount b.cells < fuel →
    (marks_pass (marks_loop fuel b)).2 = false ∧
    (marks_pass (marks_loop fuel b)).1.cells = (marks_loop fuel b).cells := by
  intro fuel
  induction fuel with
  | zero =>
    intro b _ h
    omega
  | succ f ih =>
    intro b hwf hcnt
    obtain ⟨pf, ps, pid, phi, pstrict⟩ := marks_pass_facts b
    unfold marks_loop
    cases h : (marks_pass b).2 with
    | true =>
      simp only [h, if_true]
      refine ih (marks_pass b).1 (Wf512_of_subPot hwf ps) ?_
      have := pstrict hwf h
      omega
    | false =>
      simp only [h, Bool.false_eq_true, if_false]
      have hcb := pid h
      obtain ⟨hc2, hf2⟩ := marks_pass_congr hcb
      exact ⟨by rw [hf2]; exact h, by rw [hc2]⟩


theorem potential_eq_zero_of_hasValue {c : Cell} (h : c.hasValue = true) :
    c.potential = 0 := by
  cases c with
  | val v => rfl
  | free p k => cases h

theorem board_has_value_true {cs : Cells} {x y : Nat}
    (h : board_has_value cs x y = true) :
    x < 9 ∧ y < 9 ∧ (cs (pos9 x y)).hasValue = true := by
  unfold board_has_value at h
  by_cases hb : is_in_bounds x y = true
  · have hx : x < 9 ∧ y < 9 := by
      unfold is_in_bounds at hb
      have := (Bool.and_eq_true _ _).mp hb
      exact ⟨of_decide_eq_true this.1, of_decide_eq_true this.2⟩
    rw [if_pos hb] at h
    exact ⟨hx.1, hx.2, h⟩
  · rw [if_neg hb] at h
    cases h

theorem mask_fold_testBit_hi {i : Nat} (g : Nat → Nat) (q : Nat → Bool)
    (hg : ∀ j, q j = true → (g j).testBit i = false) :
    ∀ (l : List Nat) (m : Nat), m.testBit i = false →
      (l.foldl (fun m j => if q j then m ||| g j else m) m).testBit i =
        false := by
  intro l
  induction l with
  | nil =>
    intro m hm
    exact hm
  | cons a rest ih =>
    intro m hm
    simp only [List.foldl_cons]
    cases hq : q a with
    | false =>
      rw [if_neg (by simp [hq])]
      exact ih m hm
    | true =>
      rw [if_pos rfl]
      refine ih _ ?_
      rw [Nat.testBit_lor, hm, hg a hq]
      rfl

theorem value_bit_testBit_hi {cs : Cells} (hwf : Wf9 cs) {x y i : Nat}
    (h : board_has_value cs x y = true) (hi : 9 ≤ i) :
    (1 <<< (cellAt cs x y).value).testBit i = false := by
  obtain ⟨hx, hy, hv⟩ := board_has_value_true h
  have hlt : (cs (pos9 x y)).value < 9 := hwf _ (pos9_lt_81 hx hy) hv
  exact one_shiftLeft_testBit_ne (by unfold cellAt; omega)

theorem update_marks_potential_lt {cs : Cells} (hwf : Wf9 cs) (x y : Nat) :
    update_marks_potential cs x y < 512 := by
  have hbit : ∀ i, 9 ≤ i → (update_marks_potential cs x y).testBit i = false := by
    intro i hi
    unfold update_marks_potential
    have hrow : (row_value_mask cs x y 0).testBit i = false := by
      unfold row_value_mask
      exact mask_fold_testBit_hi _ _
        (fun j hj => value_bit_testBit_hi hwf
          ((Bool.and_eq_true _ _).mp hj).2 hi) _ 0 (Nat.zero_testBit i)
    have hcol : (col_value_mask cs x y (row_value_mask cs x y 0)).testBit i
        = false := by
      unfold col_value_mask
      exact mask_fold_testBit_hi _ _
        (fun j hj => value_bit_testBit_hi hwf
          ((Bool.and_eq_true _ _).mp hj).2 hi) _ _ hrow
    rw [Nat.testBit_xor, hcol, testBit_511 i, decide_eq_false (by omega)]
    rfl
  exact lt_512_of_testBit hbit

set_option maxRecDepth 10000 in
theorem init_pass_cell (b : Board) {p : Nat} (hp : p < 81) :
    (init_pass b).cells p =
      (if (b.cells p).hasValue then b.cells p
        else recomputed_cell b.cells (p % 9) (p / 9)) := by
  obtain ⟨hf, hfree, hset⟩ :=
    init_fold_spec allCellPositions b b.cells (frameEq_refl _)
      allCellPositions_bounds
  have hmem : (p % 9, p / 9) ∈ allCellPositions :=
    mem_allCellPositions (by omega) (by omega)
  have hpos : pos9 (p % 9) (p / 9) = p := by
    unfold pos9
    omega
  rw [init_pass_eq_fold]
  cases hv : (b.cells p).hasValue with
  | true =>
    rw [if_pos rfl]
    exact hset p (Or.inl hv)
  | false =>
    rw [if_neg (fun h => Bool.false_ne_true h)]
    have := hfree (p % 9, p / 9) hmem (by rw [hpos]; exact hv)
    rw [hpos] at this
    exact this

theorem init_pass_untouched (b : Board) {p : Nat} (hp : 81 ≤ p) :
    (init_pass b).cells p = b.cells p := by
  obtain ⟨hf, hfree, hset⟩ :=
    init_fold_spec allCellPositions b b.cells (frameEq_refl _)
      allCellPositions_bounds
  rw [init_pass_eq_fold]
  refine hset p (Or.inr ?_)
  intro t ht
  obtain ⟨hx, hy⟩ := allCellPositions_bounds t ht
  have := pos9_lt_81 hx hy
  omega

theorem init_pass_frame (b : Board) :
    frameEq (init_pass b).cells b.cells := by
  obtain ⟨hf, _, _⟩ :=
    init_fold_spec allCellPositions b b.cells (frameEq_refl _)
      allCellPositions_bounds
  rw [init_pass_eq_fold]
  exact hf

theorem init_pass_wf512 {b : Board} (hwf : Wf9 b.cells) :
    Wf512 (init_pass b).cells := by
  intro p hp
  rw [init_pass_cell b hp]
  cases hv : (b.cells p).hasValue with
  | true =>
    rw [if_pos rfl, potential_eq_zero_of_hasValue hv]
    omega
  | false =>
    rw [if_neg (fun h => Bool.false_ne_true h)]
    unfold recomputed_cell Cell.potential
    exact update_marks_potential_lt hwf _ _

theorem countBits_le_nine {n : Nat} (h : n < 512) : countBits n ≤ 9 := by
  interval_cases n <;> decide

theorem totalCount_le_729 {cs : Cells} (hwf : Wf512 cs) :
    totalCount cs ≤ 729 := by
  unfold totalCount
  have h1 : ((List.range 81).map fun p => countBits (cs p).potential).sum ≤
      ((List.range 81).map fun _ => 9).sum := by
    refine sum_map_le _ _ _ ?_
    intro p hp
    exact countBits_le_nine (hwf p (List.mem_range.mp hp))
  have h2 : ((List.range 81).map fun _ => (9 : Nat)).sum = 729 := by decide
  omega


theorem uam_frame (b : Board) :
    frameEq (board_update_all_marks b).cells b.cells := by
  simp only [board_update_all_marks]
  obtain ⟨lf, _, _⟩ := marks_loop_facts 730 (init_pass b)
  exact frameEq_trans lf (init_pass_frame b)

theorem uam_untouched_hi (b : Board) {p : Nat} (hp : 81 ≤ p) :
    (board_update_all_marks b).cells p = b.cells p := by
  simp only [board_update_all_marks]
  obtain ⟨_, _, lhi⟩ := marks_loop_facts 730 (init_pass b)
  rw [lhi p hp, init_pass_untouched b hp]

theorem init_pass_cells_congr {b1 b2 : Board}
    (hf : frameEq b1.cells b2.cells)
    (hhi : ∀ p, 81 ≤ p → b1.cells p = b2.cells p) :
    (init_pass b1).cells = (init_pass b2).cells := by
  funext p
  by_cases hp : p < 81
  · rw [init_pass_cell b1 hp, init_pass_cell b2 hp]
    have h1 := (hf p).1
    cases hv : (b2.cells p).hasValue with
    | true =>
      rw [if_pos (h1.trans hv), if_pos rfl]
      exact (hf p).2 hv
    | false =>
      rw [if_neg (by rw [h1, hv]; exact Bool.false_ne_true),
        if_neg (fun h => Bool.false_ne_true h)]
      unfold recomputed_cell
      rw [update_marks_potential_congr hf]
  · rw [init_pass_untouched b1 (by omega), init_pass_untouched b2 (by omega)]
    exact hhi p (by omega)

theorem uam_idem_cells (b : Board) :
    (board_update_all_marks (board_update_all_marks b)).cells =
      (board_update_all_marks b).cells := by
  have hinit : (init_pass (board_update_all_marks b)).cells =
      (init_pass b).cells :=
    init_pass_cells_congr (uam_frame b) (fun p hp => uam_untouched_hi b hp)
  conv_lhs => rw [board_update_all_marks]
  have h2 := marks_loop_congr 730 hinit
  rw [h2]
  rw [board_update_all_marks]


/-- C7: calling `board_update_all_marks` twice in a row with no intervening
placements yields after the second call exactly the cell array — in
particular exactly the candidate sets — produced by the first call: the
fixed point reached is stable. -/
theorem C7_update_all_marks_idempotent (b : Board) (p : Nat) :
    (board_update_all_marks (board_update_all_marks b)).cells p =
      (board_update_all_marks b).cells p := by
  rw [uam_idem_cells b]

/-- C8: the fixed-point loop of `board_update_all_marks` terminates because
candidate sets only shrink: (1) a pass never adds a candidate bit; (2) a
pass that reports a change removes at least one candidate bit, strictly
decreasing the total bit count; (3) that count is at most 9 x 81 = 729 on
any well-formed board, bounding the number of changed passes; and (4) on
any board whose decided values are below 9 the fuelled loop actually
reaches the fixed point: one more pass reports no change and leaves every
cell unchanged. -/
theorem C8_update_all_marks_terminates :
    (∀ b : Board, subPot b.cells (marks_pass b).1.cells) ∧
    (∀ b : Board, Wf512 b.cells → (marks_pass b).2 = true →
      totalCount (marks_pass b).1.cells < totalCount b.cells) ∧
    (∀ cs : Cells, Wf512 cs → totalCount cs ≤ 729) ∧
    (∀ b : Board, Wf9 b.cells →
      (marks_pass (board_update_all_marks b)).2 = false ∧
      (marks_pass (board_update_all_marks b)).1.cells =
        (board_update_all_marks b).cells) := by
  refine ⟨?_, ?_, ?_, ?_⟩
  · intro b
    exact (marks_pass_facts b).2.1
  · intro b hwf hch
    exact (marks_pass_facts b).2.2.2.2 hwf hch
  · intro cs hwf
    exact totalCount_le_729 hwf
  · intro b hwf
    have hwf512 : Wf512 (init_pass b).cells := init_pass_wf512 hwf
    have hcnt : totalCount (init_pass b).cells < 730 := by
      have := totalCount_le_729 hwf512
      omega
    have hfix := marks_loop_fixpoint 730 (init_pass b) hwf512 hcnt
    simp only [board_update_all_marks]
    exact hfix

theorem C8_update_all_marks_terminates_w :
    (marks_pass (board_update_all_marks board_init)).2 = false ∧
    (marks_pass (board_update_all_marks board_init)).1.cells =
      (board_update_all_marks board_init).cells :=
  C8_update_all_marks_terminates.2.2.2 board_init
    (fun p hp h => (Bool.false_ne_true h).elim)

end Sudoku
namespace Sudoku

theorem while_skip (fuel : Nat) (b : Board) (h : b.complexity ≠ 1) :
    while_complexity_one (fuel + 1) b = (b, true) := by
  unfold while_complexity_one
  rw [if_neg (by simp [h])]

theorem sweep_cells_false_has_empty : ∀ (l : List (Nat × Nat)) (b : Board),
    (sweep_cells b l).2 = false →
    ∃ (b2 : Board) (t : Nat × Nat), board_has_value b2.cells t.1 t.2 = false ∧
      (cellAt b2.cells t.1 t.2).complexity = 1 ∧
      (cellAt b2.cells t.1 t.2).potential = 0 := by
  intro l
  induction l with
  | nil =>
    intro b h
    simp [sweep_cells] at h
  | cons t rest ih =>
    intro b h
    simp only [sweep_cells] at h
    by_cases hg : (!board_has_value b.cells t.1 t.2 &&
        ((cellAt b.cells t.1 t.2).complexity == 1)) = true
    · rw [if_pos hg] at h
      cases hm : first_potential_value (cellAt b.cells t.1 t.2).potential with
      | none =>
        obtain ⟨h1, h2⟩ := (Bool.and_eq_true _ _).mp hg
        rw [Bool.not_eq_true'] at h1
        refine ⟨b, t, h1, beq_iff_eq.mp h2, ?_⟩
        by_cases hp : (cellAt b.cells t.1 t.2).potential = 0
        · exact hp
        · unfold first_potential_value at hm
          rw [if_neg hp] at hm
          cases hm
      | some v =>
        rw [hm] at h
        dsimp only at h
        exact ih _ h
    · rw [if_neg hg] at h
      exact ih b h

theorem while_false_has_empty : ∀ (f : Nat) (b : Board),
    (while_complexity_one f b).2 = false →
    ∃ (b2 : Board) (t : Nat × Nat), board_has_value b2.cells t.1 t.2 = false ∧
      (cellAt b2.cells t.1 t.2).complexity = 1 ∧
      (cellAt b2.cells t.1 t.2).potential = 0 := by
  intro f
  induction f with
  | zero =>
    intro b h
    simp [while_complexity_one] at h
  | succ f2 ih =>
    intro b h
    simp only [while_complexity_one] at h
    by_cases hc : (b.complexity == 1) = true
    · rw [if_pos hc] at h
      cases hr : (sweep_cells b allCellPositions).2 with
      | true =>
        simp [hr] at h
        exact ih _ h
      | false =>
        exact sweep_cells_false_has_empty allCellPositions b hr
    · rw [if_neg hc] at h
      simp at h

/-- C3: corrected.  The search driver never signals failure on candidate
exhaustion: its boolean equals the boolean of the complexity-1 sweep phase
— the speculation phase, exhaustion at the chosen most-constrained cell
included, always falls through to true — and a false return implies the
sweep met an undecided cell cached as complexity 1 with an empty candidate
set, the `first_potential_value` error path; on every analyzed unsolvable
board the driver therefore returns true and the caller must inspect the
final complexity to detect failure. -/
theorem C3_simplify_false_only_on_sweep_error (fuel : Nat) (b : Board) :
    (simplify (fuel + 1) b).2 = (while_complexity_one 82 b).2 ∧
    ((simplify (fuel + 1) b).2 = false →
      ∃ (b2 : Board) (t : Nat × Nat), board_has_value b2.cells t.1 t.2 = false ∧
        (cellAt b2.cells t.1 t.2).complexity = 1 ∧
        (cellAt b2.cells t.1 t.2).potential = 0) := by
  have heq : (simplify (fuel + 1) b).2 = (while_complexity_one 82 b).2 := by
    unfold simplify
    dsimp only
    cases hw : (while_complexity_one 82 b).2 with
    | false =>
      rw [if_neg (fun hh => Bool.false_ne_true hh)]
    | true =>
      rw [if_pos rfl]
      split <;> rfl
  refine ⟨heq, ?_⟩
  intro hf
  rw [heq] at hf
  exact while_false_has_empty 82 b hf

/-- C9: corrected.  The loader's format check accepts exactly the files
whose 81 cell characters (every position except each 10th, the row
terminators) are a space or an ASCII digit `0`-`9` — the digit `0` is
accepted, contrary to the claim's range `1`-`9`. -/
theorem C9_loader_accepts_space_or_digit (data : List Nat) :
    load_board_check data = true ↔
      ∀ i, i < 89 → (i + 1) % 10 ≠ 0 → is_valid_def (data.getD i 0) = true := by
  unfold load_board_check
  rw [List.all_eq_true]
  constructor
  · intro h i hi hmod
    have hh := h i (List.mem_range.mpr hi)
    simp only [Bool.or_eq_true, beq_iff_eq] at hh
    rcases hh with hh | hh
    · exact absurd hh hmod
    · simpa using hh
  · intro h i0 hmem
    have hi0 := List.mem_range.mp hmem
    simp only [Bool.or_eq_true, beq_iff_eq]
    by_cases hmod : (i0 + 1) % 10 = 0
    · exact Or.inl hmod
    · refine Or.inr ?_
      have := h i0 hi0 hmod
      simpa using this

theorem C9_zero_digit_counterexample :
    load_board_check (List.replicate 89 48) = true ∧
    claim_cell_char_ok 48 = false := by decide

/-- C10: `board_place_speculative` never mutates the parent board: in every
branch — invalid arguments, constraint-check failure, and both outcomes of
the trial placement on the duplicate — the parent component of the result
is the untouched input board, so in particular the parent's cells,
candidate sets and complexity are unchanged whenever the trial fails. -/
theorem C10_place_speculative_parent_untouched (b : Board) (x y v : Nat) :
    (board_place_speculative b x y v).1 = b := by
  unfold board_place_speculative
  split
  · split
    · dsimp only
      split <;> rfl
    · rfl
  · rfl

/-- C4: corrected.  After the initial per-cell pass of
`board_update_all_marks`, every unset cell's candidate set is the 9-bit
complement of the union of the placed values of its row and its column
only — the 3x3 block contributes nothing — and the cached complexity is
the popcount of that candidate set. -/
theorem C4_init_pass_recomputes_row_col (b : Board) {p : Nat} (hp : p < 81)
    (hfree : (b.cells p).hasValue = false) :
    (init_pass b).cells p =
      Cell.free
        ((rowPlacedMask b.cells (p / 9) ||| colPlacedMask b.cells (p % 9)) ^^^
          511)
        (countBits
          ((rowPlacedMask b.cells (p / 9) ||| colPlacedMask b.cells (p % 9)) ^^^
            511)) := by
  rw [init_pass_cell b hp, if_neg (by rw [hfree]; exact Bool.false_ne_true)]
  have hfree2 : (cellAt b.cells (p % 9) (p / 9)).hasValue = false := by
    unfold cellAt
    rw [show pos9 (p % 9) (p / 9) = p by unfold pos9; omega]
    exact hfree
  unfold recomputed_cell
  rw [update_marks_potential_eq_placed b.cells hfree2]

theorem C4_init_pass_recomputes_row_col_w :
    (init_pass singlePlacedBoard).cells 10 =
      Cell.free
        ((rowPlacedMask singlePlacedBoard.cells (10 / 9) |||
            colPlacedMask singlePlacedBoard.cells (10 % 9)) ^^^ 511)
        (countBits
          ((rowPlacedMask singlePlacedBoard.cells (10 / 9) |||
              colPlacedMask singlePlacedBoard.cells (10 % 9)) ^^^ 511)) :=
  C4_init_pass_recomputes_row_col singlePlacedBoard (by decide) (by decide)

theorem C4_block_ignored_counterexample :
    board_has_value singlePlacedBoard.cells 1 1 = false ∧
    ((init_pass singlePlacedBoard).cells (pos9 1 1)).potential = 511 ∧
    claimed_candidates singlePlacedBoard.cells 1 1 = 510 := by
  refine ⟨by decide, ?_, by decide⟩
  rw [show pos9 1 1 = 10 from rfl,
    init_pass_cell singlePlacedBoard (by decide : (10 : Nat) < 81)]
  decide

end Sudoku
namespace Sudoku

/-- C5: refuted (code bug).  The invariant `cached complexity = popcount of
the candidate set` holds for the undecided cell `(0, 0)` of `exclBugBoard`
(potential 511, complexity 9), yet a single run of the exclusion pass on
that cell — one of the claim's listed mutating operations — shrinks its
candidate set to 126 (popcount 6) while reporting a change and leaving the
cached complexity at 9: `board_update_marks_by_excl` writes the new
potential without ever touching the complexity field. -/
theorem C5_excl_pass_breaks_complexity_cache :
    (exclBugBoard.cells (pos9 0 0)).complexity =
      countBits ((exclBugBoard.cells (pos9 0 0)).potential) ∧
    (board_update_marks_by_excl exclBugBoard.cells 0 0).2 = true ∧
    (board_update_marks_by_excl exclBugBoard.cells 0 0).1 (pos9 0 0) =
      Cell.free 126 9 ∧
    (9 : Nat) ≠ countBits 126 := by
  decide

end Sudoku
namespace Sudoku

theorem can_place_iff (cs : Cells) {x y v : Nat} (hx : x < 9) (hy : y < 9)
    (hv : v < 9) :
    board_can_place_value cs x y v = true ↔
      ((∀ cx, cx < 9 → cx ≠ x → board_has_value cs cx y = true →
          (cellAt cs cx y).value ≠ v) ∧
       (∀ cy, cy < 9 → cy ≠ y → board_has_value cs x cy = true →
          (cellAt cs x cy).value ≠ v)) := by
  unfold board_can_place_value
  rw [if_pos (by simp [is_in_bounds, is_valid_value, hx, hy, hv])]
  rw [Bool.and_eq_true, List.all_eq_true, List.all_eq_true]
  constructor
  · rintro ⟨hrow, hcol⟩
    constructor
    · intro cx hcx hne hhas hveq
      have h1 := hrow cx (List.mem_range.mpr hcx)
      simp only [Bool.or_eq_true, beq_iff_eq, Bool.not_eq_true',
        Bool.and_eq_false_iff] at h1
      rcases h1 with h1 | h1 | h1
      · exact hne h1
      · rw [hhas] at h1
        cases h1
      · rw [board_get_value_eq cs hcx hy, hveq] at h1
        simp at h1
    · intro cy hcy hne hhas hveq
      have h1 := hcol cy (List.mem_range.mpr hcy)
      simp only [Bool.or_eq_true, beq_iff_eq, Bool.not_eq_true',
        Bool.and_eq_false_iff] at h1
      rcases h1 with h1 | h1 | h1
      · exact hne h1
      · rw [hhas] at h1
        cases h1
      · rw [board_get_value_eq cs hx hcy, hveq] at h1
        simp at h1
  · rintro ⟨hrow, hcol⟩
    constructor
    · intro cx hmem
      have hcx := List.mem_range.mp hmem
      simp only [Bool.or_eq_true, beq_iff_eq, Bool.not_eq_true',
        Bool.and_eq_false_iff]
      by_cases hne : cx = x
      · exact Or.inl hne
      · cases hhas : board_has_value cs cx y with
        | false => exact Or.inr (Or.inl rfl)
        | true =>
          refine Or.inr (Or.inr ?_)
          rw [board_get_value_eq cs hcx hy]
          exact beq_eq_false_iff_ne.mpr (hrow cx hcx hne hhas)
    · intro cy hmem
      have hcy := List.mem_range.mp hmem
      simp only [Bool.or_eq_true, beq_iff_eq, Bool.not_eq_true',
        Bool.and_eq_false_iff]
      by_cases hne : cy = y
      · exact Or.inl hne
      · cases hhas : board_has_value cs x cy with
        | false => exact Or.inr (Or.inl rfl)
        | true =>
          refine Or.inr (Or.inr ?_)
          rw [board_get_value_eq cs hx hcy]
          exact beq_eq_false_iff_ne.mpr (hcol cy hcy hne hhas)

theorem can_place_value_lt {cs : Cells} {x y v : Nat}
    (h : board_can_place_value cs x y v = true) : v < 9 := by
  unfold board_can_place_value at h
  by_cases hg : (is_in_bounds x y && is_valid_value v) = true
  · have hb := (Bool.and_eq_true _ _).mp hg
    exact of_decide_eq_true hb.2
  · rw [if_neg hg] at h
    cases h

/-- C2: corrected.  `board_is_valid` checks rows and columns only: it
returns true exactly when every decided cell holds an in-range value (its
per-cell check rejects out-of-range values through the guard of
`board_can_place_value`) and no two distinct decided cells sharing a row
or a column hold the same value — a duplicated value confined to a 3x3
block is not detected (see the counterexample), though a duplicate within
one row is. -/
theorem C2_is_valid_iff_row_col_conflict_free (cs : Cells) :
    (board_is_valid cs = true ↔
      ((∀ x y, x < 9 → y < 9 → board_has_value cs x y = true →
          (cellAt cs x y).value < 9) ∧
        RowColConflictFree cs)) := by
  unfold board_is_valid
  rw [List.all_eq_true]
  constructor
  · intro h
    have hrange : ∀ x y, x < 9 → y < 9 → board_has_value cs x y = true →
        board_can_place_value cs x y (cellAt cs x y).value = true := by
      intro x y hx hy hhas
      have hall := h y (List.mem_range.mpr hy)
      rw [List.all_eq_true] at hall
      have hxy := hall x (List.mem_range.mpr hx)
      simp only [Bool.or_eq_true, Bool.not_eq_true'] at hxy
      rcases hxy with hno | hcan
      · rw [hhas] at hno
        cases hno
      · exact hcan
    refine ⟨fun x y hx hy hhas => can_place_value_lt (hrange x y hx hy hhas),
      ?_⟩
    intro x y x2 y2 hx hy hx2 hy2 h1 h2 hne hshare hveq
    have hcan := hrange x y hx hy h1
    have hvlt : (cellAt cs x y).value < 9 := can_place_value_lt hcan
    rw [can_place_iff cs hx hy hvlt] at hcan
    rcases hshare with hy2e | hx2e
    · by_cases hxx : x2 = x
      · exact hne (by rw [hxx, hy2e])
      · subst hy2e
        exact hcan.1 x2 hx2 hxx h2 hveq
    · by_cases hyy : y2 = y
      · exact hne (by rw [hx2e, hyy])
      · subst hx2e
        exact hcan.2 y2 hy2 hyy h2 hveq
  · rintro ⟨hir, hRC⟩
    intro y hmem
    have hy := List.mem_range.mp hmem
    rw [List.all_eq_true]
    intro x hmem2
    have hx := List.mem_range.mp hmem2
    simp only [Bool.or_eq_true, Bool.not_eq_true']
    cases hhas : board_has_value cs x y with
    | false => exact Or.inl rfl
    | true =>
      refine Or.inr ?_
      have hvlt : (cellAt cs x y).value < 9 := hir x y hx hy hhas
      rw [can_place_iff cs hx hy hvlt]
      constructor
      · intro cx hcx hne hhas2
        exact hRC x y cx y hx hy hcx hy hhas hhas2
          (fun hp => hne (congrArg Prod.fst hp)) (Or.inl rfl)
      · intro cy hcy hne hhas2
        exact hRC x y x cy hx hy hx hcy hhas hhas2
          (fun hp => hne (congrArg Prod.snd hp)) (Or.inr rfl)

theorem C2_block_duplicate_counterexample :
    board_is_valid blockConflictBoard.cells = true ∧
    board_has_value blockConflictBoard.cells 0 0 = true ∧
    board_has_value blockConflictBoard.cells 1 1 = true ∧
    (cellAt blockConflictBoard.cells 0 0).value =
      (cellAt blockConflictBoard.cells 1 1).value ∧
    TO_QUAD 0 = TO_QUAD 1 := by
  decide

end Sudoku
namespace Sudoku

/-- C6: corrected.  With the grid complexity at least 2 on entry (as after
the reset to the sentinel 10), the refresh scan returns false exactly when
it meets an undecided cell of cached complexity 0 before any undecided
cell of cached complexity 1 — a cached 0 behind a cached 1 in scan order
is missed, because the scan short-circuits to true on reaching minimum 1
(see the counterexample); and when every cell is decided the scan keeps
the sentinel and sets the grid complexity to 0. -/
theorem C6_refresh_scan_zero_before_one : ∀ (l : List (Nat × Nat)) (b : Board),
    2 ≤ b.complexity →
    (((refresh_scan l b).2 = false) ↔ zero_before_one b.cells l = true) ∧
    ((∀ t ∈ l, board_has_value b.cells t.1 t.2 = true) → b.complexity = 10 →
      (refresh_scan l b).1.complexity = 0) := by
  intro l
  induction l with
  | nil =>
    intro b h2
    refine ⟨?_, ?_⟩
    · simp [refresh_scan, zero_before_one]
    · intro _ h10
      simp [refresh_scan, h10]
  | cons t rest ih =>
    intro b h2
    cases hhas : board_has_value b.cells t.1 t.2 with
    | true =>
      have hstep : refresh_scan (t :: rest) b = refresh_scan rest b := by
        simp [refresh_scan, hhas]
      have hz : zero_before_one b.cells (t :: rest) =
          zero_before_one b.cells rest := by
        simp [zero_before_one, hhas]
      obtain ⟨ih1, ih2⟩ := ih b h2
      refine ⟨by rw [hstep, hz]; exact ih1, ?_⟩
      intro hall h10
      rw [hstep]
      exact ih2 (fun u hu => hall u (List.mem_cons_of_mem t hu)) h10
    | false =>
      have hc0 : ∀ P : Prop, ((∀ u ∈ t :: rest,
          board_has_value b.cells u.1 u.2 = true) → P) := by
        intro P hall
        exact absurd (hall t (List.mem_cons_self t rest)) (by rw [hhas]; simp)
      set c := (cellAt b.cells t.1 t.2).complexity with hcdef
      have hstep : refresh_scan (t :: rest) b =
          (if c < b.complexity then
            if c = 0 then (b, false)
            else
              let b1 := { b with complexity := c }
              if b1.complexity = 1 then (b1, true) else refresh_scan rest b1
          else refresh_scan rest b) := by
        rw [hcdef]
        simp [refresh_scan, hhas]
      have hz : zero_before_one b.cells (t :: rest) =
          ((c == 0) || (!(c == 1) && zero_before_one b.cells rest)) := by
        rw [hcdef]
        simp [zero_before_one, hhas]
      by_cases h0 : c = 0
      · have hlt : c < b.complexity := by omega
        rw [hstep, if_pos hlt, if_pos h0]
        refine ⟨?_, fun hall => hc0 _ hall⟩
        rw [hz, h0]
        simp
      · by_cases h1 : c = 1
        · have hlt : c < b.complexity := by omega
          rw [hstep, if_pos hlt, if_neg h0]
          have hb1 : ({ b with complexity := c } : Board).complexity = 1 := h1
          rw [if_pos hb1]
          refine ⟨?_, fun hall => hc0 _ hall⟩
          rw [hz, h1]
          simp
        · -- c ≥ 2
          have hzr : zero_before_one b.cells (t :: rest) =
              zero_before_one b.cells rest := by
            rw [hz]
            have e0 : (c == 0) = false := by simp [h0]
            have e1 : (c == 1) = false := by simp [h1]
            rw [e0, e1]
            rfl
          by_cases hlt : c < b.complexity
          · rw [hstep, if_pos hlt, if_neg h0]
            have hb1 : ({ b with complexity := c } : Board).complexity ≠ 1 := h1
            rw [if_neg hb1]
            obtain ⟨ih1, _⟩ := ih { b with complexity := c } (by simp; omega)
            refine ⟨by rw [hzr]; exact ih1, fun hall => hc0 _ hall⟩
          · rw [hstep, if_neg hlt]
            obtain ⟨ih1, _⟩ := ih b h2
            refine ⟨by rw [hzr]; exact ih1, fun hall => hc0 _ hall⟩

theorem C6_refresh_scan_zero_before_one_w :
    (((refresh_scan allCellPositions
        { allDecidedBoard with complexity := 10 }).2 = false) ↔
      zero_before_one ({ allDecidedBoard with complexity := 10 } : Board).cells
        allCellPositions = true) ∧
    ((∀ t ∈ allCellPositions,
        board_has_value
          ({ allDecidedBoard with complexity := 10 } : Board).cells t.1 t.2 =
          true) →
      ({ allDecidedBoard with complexity := 10 } : Board).complexity = 10 →
      (refresh_scan allCellPositions
        { allDecidedBoard with complexity := 10 }).1.complexity = 0) :=
  C6_refresh_scan_zero_before_one allCellPositions
    { allDecidedBoard with complexity := 10 } (by decide)

end Sudoku
namespace Sudoku

set_option maxRecDepth 100000 in
/-- C1: refuted (code bug).  Placing 0 at `(0, 0)` on the fully open
analyzed board succeeds, yet the block peer `(1, 1)` — which shares
neither the row nor the column — is left undecided with all nine
candidates, 0 included: `board_place` does unmark the block, but its final
`board_refresh_complexity` rebuilds every candidate set from rows and
columns only, wiping the block removals (and with them the claimed
complexity decrement). -/
theorem C1_place_block_peer_keeps_value :
    (board_place emptyAnalyzed 0 0 0).2 = true ∧
    (board_place emptyAnalyzed 0 0 0).1.cells (pos9 1 1) =
      Cell.free 511 9 := by
  decide

end Sudoku
namespace Sudoku

set_option maxRecDepth 100000 in
/-- C3 counterexample: the analyzed unsolvable board has final complexity
0 and leaves `(0, 0)` undecided with an empty candidate set, yet the
search driver returns true. -/
theorem C3_unsolvable_counterexample :
    unsolvableBoard.cells (pos9 0 0) = Cell.free 0 0 ∧
    unsolvableBoard.complexity = 0 ∧
    (simplify 82 unsolvableBoard).2 = true := by
  decide

set_option maxRecDepth 100000 in
/-- C6 counterexample: on `refreshGapBoard` the refresh scan meets the
complexity-1 cell `(0, 0)` before the complexity-0 cell `(1, 1)` and
short-circuits to true with grid complexity 1, although the undecided cell
`(1, 1)` has cached complexity 0. -/
theorem C6_short_circuit_counterexample :
    (board_refresh_complexity refreshGapBoard).2 = true ∧
    (board_refresh_complexity refreshGapBoard).1.complexity = 1 ∧
    (board_refresh_complexity refreshGapBoard).1.cells (pos9 1 1) =
      Cell.free 0 0 := by
  decide

end Sudoku
